import Mathlib

/-!
# PCDPointReader (PotreeConverter) — shallow embedding

Embedding of `include/PCDPointReader.hpp`.

* A `std::ifstream` is the list of bytes not yet read, the read cursor and the
  `eofbit` / `failbit` state flags.  Bytes are modelled as `Char`.
* A `std::istringstream` over one header line is the list of characters not yet
  extracted; every branch of the header loop performs either one extraction or
  a `while (lineStream >> x)` loop after the keyword, so the remaining
  characters determine every extraction result.
* The data members written by the header loop are grouped in `Header`; the
  reader is `Header` plus `point` and `stream`.  The loop body touches the
  stream only through `getline`.
* The function-local `static int count` of `readNextPoint` is program-wide
  state; it is threaded explicitly through `readNextPoint`.
* `Point` and `AABB` come from headers outside this file; the reader never
  inspects them, so they are type parameters together with their
  default-constructed values.
* `split` (used on the VERSION token) is declared outside this file and is a
  parameter of the header loop.
* Output to `std::cout` / `std::cerr` is not modelled.
-/

namespace Potree

/-! ## Streams -/

/-- State of a `std::ifstream`: unread bytes, read cursor, and state flags. -/
structure IStream where
  buf : List Char
  pos : Nat
  eofbit : Bool
  failbit : Bool
deriving DecidableEq

/-- The stream produced by `ifstream(file, in | binary)`: `some bytes` when the
file could be opened, `none` when it could not (the fail bit is set). -/
def IStream.openFile : Option (List Char) → IStream
  | some bytes => { buf := bytes, pos := 0, eofbit := false, failbit := false }
  | none => { buf := [], pos := 0, eofbit := false, failbit := true }

/-- Stream state test `stream.good()`. -/
def IStream.good (s : IStream) : Bool := !s.eofbit && !s.failbit

/-- Stream state test `stream.eof()`. -/
def IStream.eof (s : IStream) : Bool := s.eofbit

/-- Unformatted line input `getline(stream, line)`: on a stream that is not
good the sentry fails, the fail bit is set and `line` keeps its old value;
otherwise characters up to the next newline are stored, the newline is
consumed, and reaching the end of the data sets the end-of-file bit (and the
fail bit when nothing at all was extracted). -/
def getline (s : IStream) (line : List Char) : IStream × List Char :=
  if !s.good then ({ s with failbit := true }, line)
  else
    let l := s.buf.takeWhile (fun c => c != '\n')
    match s.buf.dropWhile (fun c => c != '\n') with
    | [] => ({ buf := [], pos := s.pos + l.length, eofbit := true,
               failbit := l.isEmpty }, l)
    | _ :: rest => ({ s with buf := rest, pos := s.pos + l.length + 1 }, l)

/-- Unformatted block input `stream.read(bytes, n)`: nothing happens on a stream
that is not good except that the fail bit is set; a short read consumes what is
left and sets both the end-of-file and fail bits. -/
def IStream.read (s : IStream) (n : Nat) : IStream :=
  if !s.good then { s with failbit := true }
  else if n ≤ s.buf.length then { s with buf := s.buf.drop n, pos := s.pos + n }
  else { buf := [], pos := s.pos + s.buf.length, eofbit := true, failbit := true }

/-! ## Formatted extraction from a line -/

/-- Character class `isspace` of the classic locale. -/
def isspace (c : Char) : Bool :=
  c == ' ' || c == '\t' || c == '\n' || c == '\x0b' || c == '\x0c' || c == '\r'

/-- Leading-whitespace skip performed by the sentry of a formatted extraction. -/
def skipws (cs : List Char) : List Char := cs.dropWhile isspace

/-- Extraction `lineStream >> str` for `std::string`: `none` when no
non-whitespace character is left (the target is then left untouched),
otherwise the next whitespace-delimited token and the remaining characters. -/
def extractString (cs : List Char) : Option (List Char × List Char) :=
  match skipws cs with
  | [] => none
  | c :: r => some ((c :: r).takeWhile (fun x => !isspace x),
                    (c :: r).dropWhile (fun x => !isspace x))

/-- Extraction `lineStream >> c` for `char`: the next non-whitespace
character. -/
def extractChar (cs : List Char) : Option (Char × List Char) :=
  match skipws cs with
  | [] => none
  | c :: r => some (c, r)

/-- Extraction `lineStream >> b` for `uint8_t` (an `unsigned char`): the next
non-whitespace character, stored as its byte value. -/
def extractUInt8 (cs : List Char) : Option (Nat × List Char) :=
  match skipws cs with
  | [] => none
  | c :: r => some (c.toNat % 256, r)

/-- The loop `while (lineStream >> x) v.push_back(x);`.  Every successful
extraction consumes at least one character, so `cs.length` rounds of fuel
reach the failing extraction. -/
def extractLoop {α : Type} (extract : List Char → Option (α × List Char)) :
    Nat → List Char → List α → List α
  | 0, _, v => v
  | fuel + 1, cs, v =>
    match extract cs with
    | none => v
    | some (x, rest) => extractLoop extract fuel rest (v ++ [x])

/-- All values pushed by `while (lineStream >> x) v.push_back(x);`. -/
def pushAll {α : Type} (extract : List Char → Option (α × List Char))
    (cs : List Char) (v : List α) : List α :=
  extractLoop extract cs.length cs v

/-- Decimal digit test. -/
def isdigit (c : Char) : Bool := '0' ≤ c && c ≤ '9'

/-- Value of a run of decimal digits, most significant first. -/
def digitsValue (ds : List Char) : Nat :=
  ds.foldl (fun acc c => acc * 10 + (c.toNat - '0'.toNat)) 0

/-- Conversion performed by `num_get` for `uint64_t` in base ten on the
characters after the skipped whitespace: optional sign, then digits.  Without
digits the result is 0; a value that does not fit is replaced by the largest
`uint64_t`; a leading minus negates modulo `2^64`. -/
def numGetUInt64 (cs : List Char) : Nat :=
  let body := match cs with
    | '-' :: r => (true, r)
    | '+' :: r => (false, r)
    | _ => (false, cs)
  let ds := body.2.takeWhile isdigit
  if ds.isEmpty then 0
  else
    let v := digitsValue ds
    if 2 ^ 64 ≤ v then 2 ^ 64 - 1
    else if body.1 then (2 ^ 64 - v) % 2 ^ 64 else v

/-- Extraction `lineStream >> n` for `uint64_t`: when no non-whitespace
character is left the sentry fails and `n` keeps its old value. -/
def extractUInt64 (cs : List Char) (old : Nat) : Nat :=
  match skipws cs with
  | [] => old
  | c :: r => numGetUInt64 (c :: r)

/-- Two's-complement wrap of an integer to the range of a 32-bit `int`. -/
def wrapInt32 (x : Int) : Int := (x + 2 ^ 31) % 2 ^ 32 - 2 ^ 31

/-- C library `strtol(s, NULL, 10)` with a 64-bit `long`: skip whitespace,
optional sign, decimal digits (0 when there are none); a value outside the
range of `long` is replaced by `LONG_MAX` or `LONG_MIN`. -/
def strtol (cs : List Char) : Int :=
  let v : Int :=
    match skipws cs with
    | '-' :: r => - (digitsValue (r.takeWhile isdigit) : Int)
    | '+' :: r => (digitsValue (r.takeWhile isdigit) : Int)
    | r => (digitsValue (r.takeWhile isdigit) : Int)
  if 2 ^ 63 ≤ v then 2 ^ 63 - 1
  else if v < -2 ^ 63 then -2 ^ 63
  else v

/-- C library `atoi`, which is `(int) strtol(s, NULL, 10)`: the `long` result
is converted to the 32-bit `int` that the VERSION branch compares, so
`2147483648` gives `-2147483648` and `4294967296` gives `0`. -/
def atoi (cs : List Char) : Int := wrapInt32 (strtol cs)

/-! ## Keyword literals compared against in the source -/

/-- Literal `"VERSION"`. -/
def kwVERSION : List Char := "VERSION".toList
/-- Literal `"FIELDS"`. -/
def kwFIELDS : List Char := "FIELDS".toList
/-- Literal `"SIZE"`. -/
def kwSIZE : List Char := "SIZE".toList
/-- Literal `"TYPE"`. -/
def kwTYPE : List Char := "TYPE".toList
/-- Literal `"COUNT"`. -/
def kwCOUNT : List Char := "COUNT".toList
/-- Literal `"WIDTH"`. -/
def kwWIDTH : List Char := "WIDTH".toList
/-- Literal `"HEIGHT"`. -/
def kwHEIGHT : List Char := "HEIGHT".toList
/-- Literal `"VIEWPOINT"`. -/
def kwVIEWPOINT : List Char := "VIEWPOINT".toList
/-- Literal `"POINTS"`. -/
def kwPOINTS : List Char := "POINTS".toList
/-- Literal `"DATA"`. -/
def kwDATA : List Char := "DATA".toList
/-- Literal `"binary"`. -/
def kwBinary : List Char := "binary".toList

/-! ## The reader -/

/-- Exceptions that leave the constructor. -/
inductive Exception where
  | PotreeException (what : String)
  | out_of_range
deriving DecidableEq

/-- The data members of `PCDPointReader` that the header loop writes:
`height`, `width`, `points`, `fields`, `sizes`, `types`, `counts`, `data`. -/
structure Header where
  height : Nat
  width : Nat
  points : Nat
  fields : List (List Char)
  sizes : List Nat
  types : List Char
  counts : List Nat
  data : List Char
deriving DecidableEq

/-- Data members of `PCDPointReader`: `point`, `stream` and the header
members. -/
structure PCDPointReader (Point : Type) extends Header where
  point : Point
  stream : IStream
deriving DecidableEq

/-- Default member initialisers: the three numbers are 0, the vectors and
`data` are empty. -/
def Header.init : Header :=
  { height := 0, width := 0, points := 0,
    fields := [], sizes := [], types := [], counts := [], data := [] }

/-- Member initialisation before the constructor body runs. -/
def PCDPointReader.init {Point : Type} (point : Point) (stream : IStream) :
    PCDPointReader Point :=
  { Header.init with point := point, stream := stream }

/-- Template member `byteReader<Return, Read>()` with `n = sizeof(Read)`: reads
`n` bytes from the stream.  The value it returns is the uninitialised local
`data` (the `memcpy` copies from `data` into `bytes`); callers print or discard
it, so only the effect on the stream is kept. -/
def PCDPointReader.byteReader {Point : Type} (r : PCDPointReader Point) (n : Nat) :
    PCDPointReader Point :=
  { r with stream := r.stream.read n }

/-- Size in bytes of `float`, the `Read` type of every `byteReader` call. -/
def sizeofFloat : Nat := 4

section Header

variable {Point : Type}
variable (split : List Char → List Char → List (List Char))

/-- The `if` / `else if` chain of the header loop body, for the extracted
`keyword` and the rest of the line still held by `lineStream`.  The chain
reads and writes header members only.  The flag is `true` when the chain
leaves the loop with `break`. -/
def processKeyword (h : Header) (keyword lineStream : List Char) : Header × Bool :=
  if keyword.head? = some '#' then (h, false)
  else if keyword = kwVERSION then
    match split ((extractString lineStream).elim [] Prod.fst) ['.'] with
    | major :: minor :: _ =>
      if atoi major ≠ 0 ∨ atoi minor < 7 then (h, true) else (h, false)
    | _ => (h, true)
  else if keyword = kwFIELDS then
    ({ h with fields := pushAll extractString lineStream h.fields }, false)
  else if keyword = kwSIZE then
    ({ h with sizes := pushAll extractUInt8 lineStream h.sizes }, false)
  else if keyword = kwTYPE then
    ({ h with types := pushAll extractChar lineStream h.types }, false)
  else if keyword = kwCOUNT then
    ({ h with counts := pushAll extractUInt8 lineStream h.counts }, false)
  else if keyword = kwWIDTH then
    ({ h with width := extractUInt64 lineStream h.width }, false)
  else if keyword = kwHEIGHT then
    ({ h with height := extractUInt64 lineStream h.height }, false)
  else if keyword = kwVIEWPOINT then (h, false)
  else if keyword = kwPOINTS then
    ({ h with points := extractUInt64 lineStream h.points }, false)
  else if keyword = kwDATA then
    ({ h with data := (extractString lineStream).elim h.data Prod.fst }, true)
  else (h, false)

/-- One pass through the body of the header loop for the line just read:
`lineStream >> keyword` (a failed extraction leaves `keyword` empty and the
line stream failed), then the keyword chain. -/
def processLine (h : Header) (line : List Char) : Header × Bool :=
  match extractString line with
  | none => processKeyword split h [] []
  | some p => processKeyword split h p.1 p.2

/-- The header loop `while (!stream.eof()) { getline(stream, line); ... }`.
`line` is declared outside the loop and survives a failed `getline`.  The
result is `none` when the fuel runs out before the loop is left. -/
def headerLoop : Nat → PCDPointReader Point → List Char → Option (PCDPointReader Point)
  | 0, _, _ => none
  | fuel + 1, r, line =>
    if r.stream.eof then some r
    else
      let gl := getline r.stream line
      let step := processLine split r.toHeader gl.2
      let r1 : PCDPointReader Point := { r with toHeader := step.1, stream := gl.1 }
      if step.2 then some r1 else headerLoop fuel r1 gl.2

/-- One round of the size/type dispatch of the stream-pipeline loop: `sizes.at(i)`
is evaluated first, `types.at(i)` only under the cases 1, 2, 4 and 8; every case
body is empty. -/
def dispatchField (sizes : List Nat) (types : List Char) (i : Nat) : Except Exception Unit :=
  match sizes[i]? with
  | none => .error Exception.out_of_range
  | some sz =>
    if sz = 1 ∨ sz = 2 ∨ sz = 4 ∨ sz = 8 then
      match types[i]? with
      | none => .error Exception.out_of_range
      | some _ => .ok ()
    else .ok ()

/-- The loop `for (i = 0; i < fields.size(); i++)` of the pipeline
construction, with `n` rounds left and loop variable `i`. -/
def pipelineLoop (sizes : List Nat) (types : List Char) : Nat → Nat → Except Exception Unit
  | 0, _ => .ok ()
  | n + 1, i =>
    match dispatchField sizes types i with
    | .error e => .error e
    | .ok _ => pipelineLoop sizes types n (i + 1)

/-- The block `if (data == "binary") { for ... }` that constructs the stream
pipeline. -/
def constructPipeline (r : PCDPointReader Point) : Except Exception Unit :=
  if r.data = kwBinary then pipelineLoop r.sizes r.types r.fields.length 0
  else .ok ()

/-- The part of the constructor that follows the header loop: integrity
check, the `byteReader<double, float>()` call, pipeline construction. -/
def finishOpen (r : PCDPointReader Point) : Except Exception (PCDPointReader Point) :=
  if r.fields.length ≠ r.sizes.length ∨ r.sizes.length ≠ r.types.length then
    .error (Exception.PotreeException "Integrity check failed.")
  else
    let r1 := r.byteReader sizeofFloat
    match constructPipeline r1 with
    | .error e => .error e
    | .ok _ => .ok r1

/-- Constructor `PCDPointReader(file)` on the stream obtained for `file`.
`none`: the header loop did not finish within the fuel; `some (.error e)`: the
constructor throws `e`; `some (.ok r)`: the reader is constructed. -/
def PCDPointReader.new (fuel : Nat) (point : Point) (stream : IStream) :
    Option (Except Exception (PCDPointReader Point)) :=
  match headerLoop split fuel (PCDPointReader.init point stream) [] with
  | none => none
  | some r => some (finishOpen r)

/-- Constructor on a file that could be opened, holding `bytes`: the header
loop leaves after at most `bytes.length + 1` passes. -/
def PCDPointReader.openBytes (point : Point) (bytes : List Char) :
    Option (Except Exception (PCDPointReader Point)) :=
  PCDPointReader.new split (bytes.length + 2) point (IStream.openFile (some bytes))

end Header

section Reading

variable {Point : Type}

/-- Private member `readNextPointBinary()`: returns at once when the stream is
not good and at end of file, otherwise performs one
`byteReader<double, float>()`.  The local `newPoint` is never stored. -/
def PCDPointReader.readNextPointBinary (r : PCDPointReader Point) : PCDPointReader Point :=
  if !r.stream.good && r.stream.eof then r
  else r.byteReader sizeofFloat

/-- Private member `readNextPointAscii()`: empty body; it is never called. -/
def PCDPointReader.readNextPointAscii (r : PCDPointReader Point) : PCDPointReader Point := r

/-- Member `readNextPoint()`.  `count` is the function-local `static int`, shared
by every reader of the program: the call returns `count++ < 1000`. -/
def PCDPointReader.readNextPoint (count : Int) (r : PCDPointReader Point) :
    Bool × Int × PCDPointReader Point :=
  let r1 := if r.data = kwBinary then r.readNextPointBinary else r
  (decide (count < 1000), wrapInt32 (count + 1), r1)

/-- Member `getPoint()`. -/
def PCDPointReader.getPoint (r : PCDPointReader Point) : Point := r.point

/-- Member `getAABB()`: returns a default-constructed box `AABB()`. -/
def PCDPointReader.getAABB {AABB : Type} (emptyBox : AABB) (_r : PCDPointReader Point) : AABB :=
  emptyBox

/-- Conversion `(long long) n` of a `uint64_t`. -/
def toLongLong (n : Nat) : Int :=
  if n % 2 ^ 64 < 2 ^ 63 then (n % 2 ^ 64 : Nat) else ((n % 2 ^ 64 : Nat) : Int) - 2 ^ 64

/-- Member `numPoints()`. -/
def PCDPointReader.numPoints (r : PCDPointReader Point) : Int := toLongLong r.points

/-- Repeated `readNextPoint()` calls on one reader: the results of `n` calls in
order, the final counter and the final reader. -/
def PCDPointReader.readMany : Nat → Int → PCDPointReader Point →
    List Bool × Int × PCDPointReader Point
  | 0, count, r => ([], count, r)
  | n + 1, count, r =>
    let s := r.readNextPoint count
    let rest := PCDPointReader.readMany n s.2.1 s.2.2
    (s.1 :: rest.1, rest.2)

end Reading

/-- Modelled from the spec: `split(str, delimiters)` is declared outside this
file; the VERSION line is parsed as major and minor separated by a dot, so the
model cuts the string at every delimiter and keeps the non-empty pieces. -/
def splitTokens (str : List Char) (delimiters : List Char) : List (List Char) :=
  (str.splitOnP (fun c => delimiters.contains c)).filter (fun t => !t.isEmpty)

/-! ## Line-level view of a header -/

/-- The keyword token of a header line (empty when the line has no token). -/
def keywordOf (line : List Char) : List Char := (extractString line).elim [] Prod.fst

/-- What `lineStream` still holds after the keyword was extracted. -/
def argsOf (line : List Char) : List Char := (extractString line).elim [] Prod.snd

/-- Whether the loop body leaves the header loop with `break` on this line; the
header members play no part in that. -/
def leavesLoop (split : List Char → List Char → List (List Char)) (line : List Char) : Bool :=
  (processLine split Header.init line).2

/-- The header members after the loop body ran on each of the lines in turn. -/
def runLines (split : List Char → List Char → List (List Char)) (h : Header)
    (lines : List (List Char)) : Header :=
  lines.foldl (fun acc l => (processLine split acc l).1) h

/-- The bytes of a list of lines, each line followed by a newline. -/
def unlines : List (List Char) → List Char
  | [] => []
  | l :: ls => l ++ '\n' :: unlines ls

/-! ## Line-level view of a whole header -/

/-- The loop body run over a list of lines in order, stopping at the first line
on which it leaves the loop with `break`; the flag tells whether it did. -/
def parseLines (split : List Char → List Char → List (List Char)) (h : Header) :
    List (List Char) → Header × Bool
  | [] => (h, false)
  | l :: t =>
    if (processLine split h l).2 then ((processLine split h l).1, true)
    else parseLines split (processLine split h l).1 t

/-- The three lists compared by the integrity check. -/
def Header.lists (h : Header) : List (List Char) × List Nat × List Char :=
  (h.fields, h.sizes, h.types)

/-- What the constructor leaves of the header: nothing while it has not
returned, the exception it threw, or the header members of the reader. -/
def metadata {Point : Type} :
    Option (Except Exception (PCDPointReader Point)) → Option (Except Exception Header)
  | none => none
  | some (.error e) => some (.error e)
  | some (.ok r) => some (.ok r.toHeader)

/-- Whether the constructor returned a reader. -/
def opens {Point : Type} : Option (Except Exception (PCDPointReader Point)) → Bool
  | some (.ok _) => true
  | _ => false

/-- The whitespace-separated tokens of a line, in order: the line is cut at
every whitespace character and the empty pieces are dropped. -/
def wordsOf (line : List Char) : List (List Char) :=
  (line.splitOnP isspace).filter (fun t => !t.isEmpty)

/-- The non-whitespace characters of a line, in order. -/
def nonSpaceChars (line : List Char) : List Char := line.filter (fun c => !isspace c)

/-- The keywords that the header loop compares against. -/
def recognizedKeywords : List (List Char) :=
  [kwVERSION, kwFIELDS, kwSIZE, kwTYPE, kwCOUNT, kwWIDTH, kwHEIGHT, kwVIEWPOINT, kwPOINTS, kwDATA]

/-! ## Input files used below -/

/-- A complete binary file that declares version 0.6. -/
def fileVersion06 : List Char :=
  ("VERSION 0.6\nFIELDS x y z\nSIZE 4 4 4\nTYPE F F F\nPOINTS 1\n" ++
    "DATA binary\n0123456789AB").toList

/-- Header of a binary file with three 4-byte float fields and one declared
point. -/
def headerBinaryXYZ : List Char :=
  "FIELDS x y z\nSIZE 4 4 4\nTYPE F F F\nPOINTS 1\nDATA binary\n".toList

/-- Header of the text-mode example file of the specification. -/
def headerAsciiExample : List Char :=
  ("FIELDS x y z\nSIZE 4 4 4\nTYPE F F F\nCOUNT 1 1 1\nWIDTH 2\nHEIGHT 1\nPOINTS 2\n" ++
    "DATA ascii\n").toList

/-- The text-mode example file of the specification. -/
def fileAsciiExample : List Char :=
  headerAsciiExample ++ "1.0 2.0 3.0\n4.0 5.0 6.0\n".toList

/-- The little-endian IEEE-754 single-precision encoding of the record
(1.0, 2.0, 3.0): `00 00 80 3f`, `00 00 00 40`, `00 00 40 40`. -/
def record123 : List Char :=
  [0x00, 0x00, 0x80, 0x3f, 0x00, 0x00, 0x00, 0x40, 0x00, 0x00, 0x40, 0x40].map Char.ofNat

/-- The little-endian IEEE-754 single-precision encoding of the record
(4.0, 5.0, 6.0): `00 00 80 40`, `00 00 a0 40`, `00 00 c0 40`. -/
def record456 : List Char :=
  [0x00, 0x00, 0x80, 0x40, 0x00, 0x00, 0xa0, 0x40, 0x00, 0x00, 0xc0, 0x40].map Char.ofNat

/-! ## Lemmas on the header loop -/

section HeaderLemmas

variable {Point : Type}
variable (split : List Char → List Char → List (List Char))

/-- Case principle for the keyword chain: a property that holds for the
unchanged members (in the branches that change nothing) and for each of the
eight member updates holds for the result. -/
theorem processKeyword_cases (P : Header × Bool → Prop)
    (h : Header) (k ls : List Char)
    (hsame : k ≠ kwFIELDS → k ≠ kwSIZE → k ≠ kwTYPE → k ≠ kwCOUNT → k ≠ kwWIDTH →
      k ≠ kwHEIGHT → k ≠ kwPOINTS → k ≠ kwDATA → ∀ b, P (h, b))
    (hfields : k = kwFIELDS → P ({ h with fields := pushAll extractString ls h.fields }, false))
    (hsizes : k = kwSIZE → P ({ h with sizes := pushAll extractUInt8 ls h.sizes }, false))
    (htypes : k = kwTYPE → P ({ h with types := pushAll extractChar ls h.types }, false))
    (hcounts : k = kwCOUNT → P ({ h with counts := pushAll extractUInt8 ls h.counts }, false))
    (hwidth : k = kwWIDTH → P ({ h with width := extractUInt64 ls h.width }, false))
    (hheight : k = kwHEIGHT → P ({ h with height := extractUInt64 ls h.height }, false))
    (hpoints : k = kwPOINTS → P ({ h with points := extractUInt64 ls h.points }, false))
    (hdata : k = kwDATA → P ({ h with data := (extractString ls).elim h.data Prod.fst }, true)) :
    P (processKeyword split h k ls) := by
  unfold processKeyword
  by_cases c0 : k.head? = some '#'
  · rw [if_pos c0]
    refine hsame ?_ ?_ ?_ ?_ ?_ ?_ ?_ ?_ _ <;>
      (intro hk; rw [hk] at c0; exact absurd c0 (by decide))
  rw [if_neg c0]
  by_cases c1 : k = kwVERSION
  · rw [if_pos c1]
    have hs : ∀ b, P (h, b) := by
      refine hsame ?_ ?_ ?_ ?_ ?_ ?_ ?_ ?_ <;>
        (intro hk; rw [hk] at c1; exact absurd c1 (by decide))
    split
    · split <;> exact hs _
    · exact hs _
  rw [if_neg c1]
  by_cases c2 : k = kwFIELDS
  · rw [if_pos c2]; exact hfields c2
  rw [if_neg c2]
  by_cases c3 : k = kwSIZE
  · rw [if_pos c3]; exact hsizes c3
  rw [if_neg c3]
  by_cases c4 : k = kwTYPE
  · rw [if_pos c4]; exact htypes c4
  rw [if_neg c4]
  by_cases c5 : k = kwCOUNT
  · rw [if_pos c5]; exact hcounts c5
  rw [if_neg c5]
  by_cases c6 : k = kwWIDTH
  · rw [if_pos c6]; exact hwidth c6
  rw [if_neg c6]
  by_cases c7 : k = kwHEIGHT
  · rw [if_pos c7]; exact hheight c7
  rw [if_neg c7]
  by_cases c8 : k = kwVIEWPOINT
  · rw [if_pos c8]; exact hsame c2 c3 c4 c5 c6 c7 (by rw [c8]; decide) (by rw [c8]; decide) _
  rw [if_neg c8]
  by_cases c9 : k = kwPOINTS
  · rw [if_pos c9]; exact hpoints c9
  rw [if_neg c9]
  by_cases c10 : k = kwDATA
  · rw [if_pos c10]; exact hdata c10
  rw [if_neg c10]
  exact hsame c2 c3 c4 c5 c6 c7 c9 c10 _

/-- The `break` flag of the keyword chain does not depend on the header
members. -/
theorem processKeyword_snd (h h' : Header) (k ls : List Char) :
    (processKeyword split h k ls).2 = (processKeyword split h' k ls).2 := by
  unfold processKeyword
  by_cases c0 : k.head? = some '#'
  · simp only [if_pos c0]
  simp only [if_neg c0]
  by_cases c1 : k = kwVERSION
  · simp only [if_pos c1]
    split
    · split <;> rfl
    · rfl
  simp only [if_neg c1]
  by_cases c2 : k = kwFIELDS
  · simp only [if_pos c2]
  simp only [if_neg c2]
  by_cases c3 : k = kwSIZE
  · simp only [if_pos c3]
  simp only [if_neg c3]
  by_cases c4 : k = kwTYPE
  · simp only [if_pos c4]
  simp only [if_neg c4]
  by_cases c5 : k = kwCOUNT
  · simp only [if_pos c5]
  simp only [if_neg c5]
  by_cases c6 : k = kwWIDTH
  · simp only [if_pos c6]
  simp only [if_neg c6]
  by_cases c7 : k = kwHEIGHT
  · simp only [if_pos c7]
  simp only [if_neg c7]
  by_cases c8 : k = kwVIEWPOINT
  · simp only [if_pos c8]
  simp only [if_neg c8]
  by_cases c9 : k = kwPOINTS
  · simp only [if_pos c9]
  simp only [if_neg c9]
  by_cases c10 : k = kwDATA
  · simp only [if_pos c10]
  simp only [if_neg c10]

/-- The loop body in terms of the keyword and the rest of the line. -/
theorem processLine_eq (h : Header) (line : List Char) :
    processLine split h line = processKeyword split h (keywordOf line) (argsOf line) := by
  unfold processLine keywordOf argsOf
  cases extractString line <;> rfl

theorem processLine_snd (h : Header) (line : List Char) :
    (processLine split h line).2 = leavesLoop split line := by
  unfold leavesLoop
  rw [processLine_eq, processLine_eq]
  exact processKeyword_snd split _ _ _ _

/-- On a good stream `getline` either sets the end-of-file bit or leaves a good
stream with strictly fewer unread bytes. -/
theorem getline_good_cases (s : IStream) (line : List Char) (hg : s.good = true) :
    ((getline s line).1.eofbit = true) ∨
    ((getline s line).1.good = true ∧ (getline s line).1.buf.length < s.buf.length) := by
  unfold getline
  simp only [hg, Bool.not_true, Bool.false_eq_true, if_false]
  split
  · left; rfl
  · rename_i c rest h
    right
    refine ⟨by simpa [IStream.good] using hg, ?_⟩
    have h1 := List.takeWhile_append_dropWhile (fun c => c != '\n') s.buf
    have h2 := congrArg List.length h1
    rw [h] at h2
    simp at h2 ⊢
    omega

/-- The header loop finishes on a stream that is at end of file or good, given
fuel for one pass per unread byte and two more. -/
theorem headerLoop_isSome (fuel : Nat) (r : PCDPointReader Point) (line : List Char)
    (h : (r.stream.eofbit = true ∧ 1 ≤ fuel) ∨
         (r.stream.good = true ∧ r.stream.buf.length + 2 ≤ fuel)) :
    (headerLoop split fuel r line).isSome = true := by
  induction fuel generalizing r line with
  | zero => rcases h with ⟨_, h⟩ | ⟨_, h⟩ <;> omega
  | succ n ih =>
    unfold headerLoop
    by_cases he : r.stream.eof = true
    · simp [he]
    · simp only [he, Bool.false_eq_true, if_false]
      have hg : r.stream.good = true := by
        rcases h with ⟨h, _⟩ | ⟨h, _⟩
        · exact absurd h he
        · exact h
      have hlen : r.stream.buf.length + 2 ≤ n + 1 := by
        rcases h with ⟨h, _⟩ | ⟨_, h⟩
        · exact absurd h he
        · exact h
      split_ifs with hb
      · rfl
      · apply ih
        dsimp only
        rcases getline_good_cases r.stream line hg with h1 | ⟨h1, h2⟩
        · left; exact ⟨h1, by omega⟩
        · right; exact ⟨h1, by omega⟩

/-- The constructor returns or throws on every file that could be opened. -/
theorem openBytes_isSome (point : Point) (bytes : List Char) :
    (PCDPointReader.openBytes split point bytes).isSome = true := by
  unfold PCDPointReader.openBytes PCDPointReader.new
  have h := headerLoop_isSome split (bytes.length + 2)
    (PCDPointReader.init point (IStream.openFile (some bytes))) []
    (Or.inr ⟨rfl, le_refl _⟩)
  cases hl : headerLoop split (bytes.length + 2)
    (PCDPointReader.init point (IStream.openFile (some bytes))) [] with
  | none => rw [hl] at h; exact absurd h (by simp)
  | some r => rfl

/-- Bounds-checked accesses of the pipeline loop never throw while the loop
variable stays below both list lengths. -/
theorem pipelineLoop_ok (sizes : List Nat) (types : List Char) (n i : Nat)
    (hs : i + n ≤ sizes.length) (ht : i + n ≤ types.length) :
    pipelineLoop sizes types n i = .ok () := by
  induction n generalizing i with
  | zero => rfl
  | succ m ih =>
    have hd : dispatchField sizes types i = .ok () := by
      unfold dispatchField
      have hs1 : i < sizes.length := by omega
      have ht1 : i < types.length := by omega
      rw [List.getElem?_eq_getElem hs1, List.getElem?_eq_getElem ht1]
      simp only []
      split_ifs <;> rfl
    unfold pipelineLoop
    rw [hd]
    exact ih (i + 1) (by omega) (by omega)

theorem constructPipeline_ok (r : PCDPointReader Point)
    (h1 : r.fields.length = r.sizes.length) (h2 : r.sizes.length = r.types.length) :
    constructPipeline r = .ok () := by
  unfold constructPipeline
  split_ifs
  · exact pipelineLoop_ok _ _ _ _ (by omega) (by omega)
  · rfl

/-- What `finishOpen` returns: the integrity check decides alone between the
exception and the reader after one `byteReader` call. -/
theorem finishOpen_eq (r : PCDPointReader Point) :
    finishOpen r =
      if r.fields.length ≠ r.sizes.length ∨ r.sizes.length ≠ r.types.length then
        .error (Exception.PotreeException "Integrity check failed.")
      else .ok (r.byteReader sizeofFloat) := by
  unfold finishOpen
  split_ifs with h
  · rfl
  · have h' : r.fields.length = r.sizes.length ∧ r.sizes.length = r.types.length := by
      constructor
      · by_contra hc; exact h (Or.inl hc)
      · by_contra hc; exact h (Or.inr hc)
    have := constructPipeline_ok (r.byteReader sizeofFloat) h'.1 h'.2
    simp only [this]

theorem getline_line (l rest line : List Char) (p : Nat) (hl : '\n' ∉ l) :
    getline { buf := l ++ '\n' :: rest, pos := p, eofbit := false, failbit := false } line =
      ({ buf := rest, pos := p + l.length + 1, eofbit := false, failbit := false }, l) := by
  have hp : ∀ a ∈ l, (fun c : Char => c != '\n') a = true := by
    intro a ha
    have : a ≠ '\n' := fun h => hl (h ▸ ha)
    simpa using this
  unfold getline
  simp only [IStream.good, Bool.not_false, Bool.and_self, Bool.not_true, Bool.false_eq_true,
    if_false]
  rw [List.takeWhile_append_of_pos hp, List.dropWhile_append_of_pos hp]
  simp

theorem getline_last (l line : List Char) (p : Nat) (hl : '\n' ∉ l) :
    getline { buf := l, pos := p, eofbit := false, failbit := false } line =
      ({ buf := [], pos := p + l.length, eofbit := true, failbit := l.isEmpty }, l) := by
  have hp : ∀ a ∈ l, (fun c : Char => c != '\n') a = true := by
    intro a ha
    have : a ≠ '\n' := fun h => hl (h ▸ ha)
    simpa using this
  unfold getline
  simp only [IStream.good, Bool.not_false, Bool.and_self, Bool.not_true, Bool.false_eq_true,
    if_false]
  have h1 : l.takeWhile (fun c : Char => c != '\n') = l := List.takeWhile_eq_self_iff.mpr hp
  have h2 : l.dropWhile (fun c : Char => c != '\n') = [] := List.dropWhile_eq_nil_iff.mpr hp
  rw [h1, h2]

/-- One pass of the header loop over a newline-terminated line. -/
theorem headerLoop_line (n : Nat) (r : PCDPointReader Point) (l rest line : List Char) (p : Nat)
    (hl : '\n' ∉ l)
    (hs : r.stream = { buf := l ++ '\n' :: rest, pos := p, eofbit := false, failbit := false }) :
    headerLoop split (n + 1) r line =
      if leavesLoop split l
      then some { r with
            toHeader := (processLine split r.toHeader l).1
            stream := { buf := rest, pos := p + l.length + 1, eofbit := false, failbit := false } }
      else headerLoop split n { r with
            toHeader := (processLine split r.toHeader l).1
            stream := { buf := rest, pos := p + l.length + 1, eofbit := false, failbit := false } }
          l := by
  rw [headerLoop]
  simp only [hs, IStream.eof, Bool.false_eq_true, if_false, getline_line l rest line p hl,
    processLine_snd]

/-- The pass of the header loop over a last line without newline. -/
theorem headerLoop_last (n : Nat) (r : PCDPointReader Point) (l line : List Char) (p : Nat)
    (hl : '\n' ∉ l)
    (hs : r.stream = { buf := l, pos := p, eofbit := false, failbit := false }) :
    headerLoop split (n + 2) r line =
      some { r with
        toHeader := (processLine split r.toHeader l).1
        stream := { buf := [], pos := p + l.length, eofbit := true, failbit := l.isEmpty } } := by
  rw [headerLoop]
  simp only [hs, IStream.eof, Bool.false_eq_true, if_false, getline_last l line p hl]
  split_ifs with hb
  · rfl
  · rw [headerLoop]
    simp [IStream.eof]

/-- More fuel does not change a result of the header loop. -/
theorem headerLoop_fuel_mono (n k : Nat) (r x : PCDPointReader Point) (line : List Char)
    (h : headerLoop split n r line = some x) : headerLoop split (n + k) r line = some x := by
  induction n generalizing r line with
  | zero => simp [headerLoop] at h
  | succ m ih =>
    have e : m + 1 + k = (m + k) + 1 := by omega
    rw [e]
    rw [headerLoop] at h ⊢
    dsimp only at h ⊢
    split_ifs at h ⊢ with h1 h2
    · exact h
    · exact h
    · exact ih _ _ h

/-- The header loop never assigns `point`. -/
theorem headerLoop_point (n : Nat) (r x : PCDPointReader Point) (line : List Char)
    (h : headerLoop split n r line = some x) : x.point = r.point := by
  induction n generalizing r line with
  | zero => simp [headerLoop] at h
  | succ m ih =>
    rw [headerLoop] at h
    dsimp only at h
    split_ifs at h with h1 h2
    · injection h with h; rw [← h]
    · injection h with h; rw [← h]
    · rw [ih _ _ h]

/-- A constructed reader holds the default-constructed `point`. -/
theorem new_point (fuel : Nat) (point : Point) (stream : IStream) (r : PCDPointReader Point)
    (h : PCDPointReader.new split fuel point stream = some (.ok r)) : r.point = point := by
  unfold PCDPointReader.new at h
  cases hl : headerLoop split fuel (PCDPointReader.init point stream) [] with
  | none => rw [hl] at h; exact absurd h (by simp)
  | some x =>
    rw [hl] at h
    simp only [finishOpen_eq, Option.some.injEq] at h
    split_ifs at h
    injection h with h
    rw [← h]
    exact headerLoop_point split _ _ _ _ hl

end HeaderLemmas

/-! ## Lemmas on reading -/

section ReadingLemmas

variable {Point : Type}

/-- A `readNextPoint` call never assigns `point`. -/
theorem readNextPoint_point (count : Int) (r : PCDPointReader Point) :
    (r.readNextPoint count).2.2.point = r.point := by
  unfold PCDPointReader.readNextPoint PCDPointReader.readNextPointBinary PCDPointReader.byteReader
  dsimp only
  split_ifs <;> rfl

theorem readMany_point (n : Nat) (count : Int) (r : PCDPointReader Point) :
    (PCDPointReader.readMany n count r).2.2.point = r.point := by
  induction n generalizing count r with
  | zero => rfl
  | succ m ih =>
    rw [PCDPointReader.readMany]
    dsimp only
    rw [ih, readNextPoint_point]

/-- Wrapping is the identity on the range of `int`. -/
theorem wrapInt32_of_range (x : Int) (h1 : -2 ^ 31 ≤ x) (h2 : x < 2 ^ 31) : wrapInt32 x = x := by
  unfold wrapInt32
  omega

/-- Results and counter of `n` calls while the counter cannot overflow. -/
theorem readMany_results (n : Nat) (count : Int) (r : PCDPointReader Point)
    (h0 : 0 ≤ count) (h1 : count + n < 2 ^ 31) :
    (PCDPointReader.readMany n count r).1 =
        (List.range n).map (fun (i : Nat) => decide (count + (i : Int) < 1000)) ∧
    (PCDPointReader.readMany n count r).2.1 = count + n := by
  induction n generalizing count r with
  | zero => simp [PCDPointReader.readMany]
  | succ m ih =>
    rw [PCDPointReader.readMany]
    dsimp only
    have hw : (r.readNextPoint count).2.1 = count + 1 := by
      show wrapInt32 (count + 1) = count + 1
      apply wrapInt32_of_range <;> omega
    have hf : (r.readNextPoint count).1 = decide (count < 1000) := rfl
    rw [hw]
    obtain ⟨ih1, ih2⟩ := ih (count + 1) (r.readNextPoint count).2.2 (by omega)
      (by push_cast at h1 ⊢; omega)
    rw [ih1, ih2, hf]
    constructor
    · rw [List.range_succ_eq_map]
      simp [List.map_map, Function.comp_def, add_assoc, add_comm 1]
      intro a _
      rw [add_comm (1 : Int) a]
    · push_cast; ring

end ReadingLemmas

/-! ## Evaluation of the header loop on particular files -/

section Evaluation

variable {Point : Type}
variable (split : List Char → List Char → List (List Char))

/-- The VERSION branch never changes a data member. -/
theorem processKeyword_VERSION_fst (h : Header) (ls : List Char) :
    (processKeyword split h kwVERSION ls).1 = h := by
  unfold processKeyword
  rw [if_neg (by decide), if_pos rfl]
  split
  · split <;> rfl
  · rfl

/-- An empty line falls through to the final `else` of the keyword chain. -/
theorem processLine_nil (h : Header) : processLine split h [] = (h, false) := rfl

/-- A file that consists of one VERSION line: whether the VERSION branch leaves
the loop with `break` or not, the constructor returns a reader with empty
lists. -/
theorem version_only_opens (point : Point) (v : List Char)
    (hv : '\n' ∉ v) (hk : keywordOf v = kwVERSION) :
    ∃ s, PCDPointReader.new split (v.length + 3) point (IStream.openFile (some (v ++ ['\n']))) =
      some (.ok { PCDPointReader.init point s with stream := s }) := by
  unfold PCDPointReader.new
  rw [headerLoop_line split (v.length + 2) _ v [] [] 0 hv rfl]
  have hpl : ∀ h : Header, (processLine split h v).1 = h := by
    intro h
    rw [processLine_eq, hk]
    exact processKeyword_VERSION_fst split h _
  rw [hpl]
  have hc : ∀ r : PCDPointReader Point, r.toHeader = Header.init →
      finishOpen r = .ok (r.byteReader sizeofFloat) := by
    intro r hr
    rw [finishOpen_eq, if_neg]
    simp [hr, Header.init]
  split_ifs with hb
  · refine ⟨IStream.read ⟨[], 0 + v.length + 1, false, false⟩ sizeofFloat, ?_⟩
    show some (finishOpen _) = _
    rw [hc _ rfl]
    rfl
  · rw [headerLoop_last split v.length _ [] v (0 + v.length + 1) (by simp) rfl, processLine_nil]
    refine ⟨IStream.read ⟨[], 0 + v.length + 1 + 0, true, true⟩ sizeofFloat, ?_⟩
    show some (finishOpen _) = _
    rw [hc _ rfl]
    rfl

/-- A file whose first line is a VERSION line on which the loop body leaves the
loop: whatever follows that line, the constructor returns a reader whose
header members are still the initial ones. -/
theorem rejected_version_opens (point : Point) (v rest : List Char)
    (hv : '\n' ∉ v) (hk : keywordOf v = kwVERSION) (hb : leavesLoop split v = true) :
    ∃ r, PCDPointReader.openBytes split point (v ++ '\n' :: rest) = some (.ok r) ∧
      r.toHeader = Header.init := by
  unfold PCDPointReader.openBytes PCDPointReader.new
  have e : (v ++ '\n' :: rest).length + 2 = (v.length + rest.length + 2) + 1 := by
    simp; omega
  rw [e, headerLoop_line split _ _ v rest [] 0 hv rfl, hb]
  have hpl : (processLine split Header.init v).1 = Header.init := by
    rw [processLine_eq, hk]
    exact processKeyword_VERSION_fst split _ _
  refine ⟨IStream.read ⟨rest, 0 + v.length + 1, false, false⟩ sizeofFloat |>
    fun s => { PCDPointReader.init point s with stream := s }, ?_, rfl⟩
  show some (finishOpen _) = _
  rw [finishOpen_eq, if_neg]
  · show some (Except.ok _) = some (Except.ok _)
    congr 2
    show PCDPointReader.byteReader _ _ = _
    unfold PCDPointReader.byteReader
    simp only [PCDPointReader.init]
    rw [hpl]
  · have hi : (PCDPointReader.init point
        (IStream.openFile (some (v ++ '\n' :: rest)))).toHeader = Header.init := rfl
    simp only [hi, hpl]
    simp [Header.init]

/-- A pass over a line that does not leave the loop. -/
theorem headerLoop_line_next (n : Nat) (r : PCDPointReader Point) (h1 : Header)
    (l rest line : List Char) (p : Nat) (hl : '\n' ∉ l)
    (hs : r.stream = { buf := l ++ '\n' :: rest, pos := p, eofbit := false, failbit := false })
    (hp : processLine split r.toHeader l = (h1, false)) :
    headerLoop split (n + 1) r line =
      headerLoop split n { r with toHeader := h1, stream :=
        { buf := rest, pos := p + l.length + 1, eofbit := false, failbit := false } } l := by
  have hf : leavesLoop split l = false := by rw [← processLine_snd split r.toHeader, hp]
  rw [headerLoop_line split n r l rest line p hl hs, hp, hf]
  simp

/-- A pass over a line that leaves the loop. -/
theorem headerLoop_line_break (n : Nat) (r : PCDPointReader Point) (h1 : Header)
    (l rest line : List Char) (p : Nat) (hl : '\n' ∉ l)
    (hs : r.stream = { buf := l ++ '\n' :: rest, pos := p, eofbit := false, failbit := false })
    (hp : processLine split r.toHeader l = (h1, true)) :
    headerLoop split (n + 1) r line =
      some { r with toHeader := h1, stream :=
        { buf := rest, pos := p + l.length + 1, eofbit := false, failbit := false } } := by
  have hf : leavesLoop split l = true := by rw [← processLine_snd split r.toHeader, hp]
  rw [headerLoop_line split n r l rest line p hl hs, hp, hf]
  simp

/-- The header loop on the three-float binary header followed by any bytes. -/
theorem headerLoop_binaryXYZ (point : Point) (body : List Char) :
    headerLoop split 5 (PCDPointReader.init point
        (IStream.openFile (some (headerBinaryXYZ ++ body)))) [] =
      some { point := point,
             stream := { buf := body, pos := 56, eofbit := false, failbit := false },
             height := 0, width := 0, points := 1,
             fields := ["x".toList, "y".toList, "z".toList], sizes := [52, 52, 52],
             types := ['F', 'F', 'F'], counts := [], data := kwBinary } := by
  rw [headerLoop_line_next split 4 _ _ "FIELDS x y z".toList
    ("SIZE 4 4 4\nTYPE F F F\nPOINTS 1\nDATA binary\n".toList ++ body) [] 0 (by decide) rfl rfl]
  rw [headerLoop_line_next split 3 _ _ "SIZE 4 4 4".toList
    ("TYPE F F F\nPOINTS 1\nDATA binary\n".toList ++ body) _ 13 (by decide) rfl rfl]
  rw [headerLoop_line_next split 2 _ _ "TYPE F F F".toList
    ("POINTS 1\nDATA binary\n".toList ++ body) _ 24 (by decide) rfl rfl]
  rw [headerLoop_line_next split 1 _ _ "POINTS 1".toList
    ("DATA binary\n".toList ++ body) _ 35 (by decide) rfl rfl]
  rw [headerLoop_line_break split 0 _ _ "DATA binary".toList body _ 44 (by decide) rfl rfl]
  rfl

/-- The constructor on the three-float binary header followed by at least four
bytes: the reader it returns has read those four bytes. -/
theorem openBytes_binaryXYZ (point : Point) (a b c d : Char) (rest : List Char) :
    PCDPointReader.openBytes split point (headerBinaryXYZ ++ a :: b :: c :: d :: rest) =
      some (Except.ok
        { point := point,
          stream := { buf := rest, pos := 60, eofbit := false, failbit := false },
          height := 0, width := 0, points := 1,
          fields := ["x".toList, "y".toList, "z".toList], sizes := [52, 52, 52],
          types := ['F', 'F', 'F'], counts := [], data := kwBinary }) := by
  unfold PCDPointReader.openBytes PCDPointReader.new
  have h := headerLoop_fuel_mono split 5
    ((headerBinaryXYZ ++ a :: b :: c :: d :: rest).length + 2 - 5) _ _ _
    (headerLoop_binaryXYZ split point (a :: b :: c :: d :: rest))
  have e : 5 + ((headerBinaryXYZ ++ a :: b :: c :: d :: rest).length + 2 - 5) =
      (headerBinaryXYZ ++ a :: b :: c :: d :: rest).length + 2 := by
    have hl : headerBinaryXYZ.length = 56 := rfl
    rw [List.length_append, hl]
    omega
  rw [e] at h
  rw [h]
  show some (finishOpen _) = _
  rw [finishOpen_eq, if_neg (by simp)]
  simp [PCDPointReader.byteReader, IStream.read, IStream.good, sizeofFloat]

/-- The header loop on the header of the text-mode example followed by any
bytes. -/
theorem headerLoop_asciiExample (point : Point) (body : List Char) :
    headerLoop split 8 (PCDPointReader.init point
        (IStream.openFile (some (headerAsciiExample ++ body)))) [] =
      some { point := point,
             stream := { buf := body, pos := 84, eofbit := false, failbit := false },
             height := 1, width := 2, points := 2,
             fields := ["x".toList, "y".toList, "z".toList], sizes := [52, 52, 52],
             types := ['F', 'F', 'F'], counts := [49, 49, 49], data := "ascii".toList } := by
  rw [headerLoop_line_next split 7 _ _ "FIELDS x y z".toList
    (("SIZE 4 4 4\nTYPE F F F\nCOUNT 1 1 1\nWIDTH 2\nHEIGHT 1\nPOINTS 2\n" ++
      "DATA ascii\n").toList ++ body) [] 0 (by decide) rfl rfl]
  rw [headerLoop_line_next split 6 _ _ "SIZE 4 4 4".toList
    ("TYPE F F F\nCOUNT 1 1 1\nWIDTH 2\nHEIGHT 1\nPOINTS 2\nDATA ascii\n".toList ++ body)
    _ 13 (by decide) rfl rfl]
  rw [headerLoop_line_next split 5 _ _ "TYPE F F F".toList
    ("COUNT 1 1 1\nWIDTH 2\nHEIGHT 1\nPOINTS 2\nDATA ascii\n".toList ++ body)
    _ 24 (by decide) rfl rfl]
  rw [headerLoop_line_next split 4 _ _ "COUNT 1 1 1".toList
    ("WIDTH 2\nHEIGHT 1\nPOINTS 2\nDATA ascii\n".toList ++ body) _ 35 (by decide) rfl rfl]
  rw [headerLoop_line_next split 3 _ _ "WIDTH 2".toList
    ("HEIGHT 1\nPOINTS 2\nDATA ascii\n".toList ++ body) _ 47 (by decide) rfl rfl]
  rw [headerLoop_line_next split 2 _ _ "HEIGHT 1".toList
    ("POINTS 2\nDATA ascii\n".toList ++ body) _ 55 (by decide) rfl rfl]
  rw [headerLoop_line_next split 1 _ _ "POINTS 2".toList
    ("DATA ascii\n".toList ++ body) _ 64 (by decide) rfl rfl]
  rw [headerLoop_line_break split 0 _ _ "DATA ascii".toList body _ 73 (by decide) rfl rfl]
  rfl

/-- The constructor on the text-mode example file: the reader it returns has
read the first four characters of the first record. -/
theorem openBytes_asciiExample (point : Point) :
    PCDPointReader.openBytes split point fileAsciiExample =
      some (Except.ok
        { point := point,
          stream := { buf := "2.0 3.0\n4.0 5.0 6.0\n".toList, pos := 88, eofbit := false,
                      failbit := false },
          height := 1, width := 2, points := 2,
          fields := ["x".toList, "y".toList, "z".toList], sizes := [52, 52, 52],
          types := ['F', 'F', 'F'], counts := [49, 49, 49], data := "ascii".toList }) := by
  unfold PCDPointReader.openBytes PCDPointReader.new
  have h := headerLoop_fuel_mono split 8 102 _ _ _
    (headerLoop_asciiExample split point "1.0 2.0 3.0\n4.0 5.0 6.0\n".toList)
  have e : fileAsciiExample.length + 2 = 8 + 102 := rfl
  rw [e]
  unfold fileAsciiExample
  rw [h]
  show some (finishOpen _) = _
  rw [finishOpen_eq, if_neg (by simp)]
  rfl

end Evaluation

/-! ## Lemmas on decimal numbers and on runs of header lines -/

section PointsLemmas

variable {Point : Type}
variable (split : List Char → List Char → List (List Char))

theorem digitsValue_foldl (ds : List Char) (a : Nat) :
    ds.foldl (fun acc c => acc * 10 + (c.toNat - '0'.toNat)) a =
      a * 10 ^ ds.length + digitsValue ds := by
  unfold digitsValue
  induction ds generalizing a with
  | nil => simp
  | cons c t ih =>
    simp only [List.foldl_cons, List.length_cons]
    rw [ih (a * 10 + (c.toNat - '0'.toNat)), ih (0 * 10 + (c.toNat - '0'.toNat))]
    ring

theorem digitsValue_cons (c : Char) (ds : List Char) :
    digitsValue (c :: ds) = (c.toNat - '0'.toNat) * 10 ^ ds.length + digitsValue ds := by
  have h := digitsValue_foldl ds (0 * 10 + (c.toNat - '0'.toNat))
  unfold digitsValue at h ⊢
  simp only [List.foldl_cons]
  rw [h]
  ring

/-- The character of a digit below ten is a decimal digit with that value. -/
theorem digitChar_spec (k : Nat) (hk : k < 10) :
    isdigit (Nat.digitChar k) = true ∧ (Nat.digitChar k).toNat - '0'.toNat = k ∧
      isspace (Nat.digitChar k) = false ∧ Nat.digitChar k ≠ '-' ∧ Nat.digitChar k ≠ '+' ∧
      Nat.digitChar k ≠ '\n' := by
  interval_cases k <;> decide

theorem toDigitsCore_spec (fuel n : Nat) (ds : List Char) (hf : n < fuel)
    (hds : ∀ c ∈ ds, isdigit c = true) :
    (∀ c ∈ Nat.toDigitsCore 10 fuel n ds, isdigit c = true) ∧
    digitsValue (Nat.toDigitsCore 10 fuel n ds) = n * 10 ^ ds.length + digitsValue ds ∧
    ∃ c t, Nat.toDigitsCore 10 fuel n ds = c :: t ∧ isspace c = false ∧ c ≠ '-' ∧ c ≠ '+' := by
  induction fuel generalizing n ds with
  | zero => omega
  | succ m ih =>
    have hd := digitChar_spec (n % 10) (Nat.mod_lt _ (by norm_num))
    unfold Nat.toDigitsCore
    dsimp only
    split_ifs with h0
    · refine ⟨?_, ?_, ⟨_, _, rfl, hd.2.2.1, hd.2.2.2.1, hd.2.2.2.2.1⟩⟩
      · intro c hc
        rcases List.mem_cons.mp hc with rfl | hc
        · exact hd.1
        · exact hds c hc
      · rw [digitsValue_cons, hd.2.1]
        have : n % 10 = n := by omega
        rw [this]
    · have hlt : n / 10 < m := by omega
      have hds' : ∀ c ∈ Nat.digitChar (n % 10) :: ds, isdigit c = true := by
        intro c hc
        rcases List.mem_cons.mp hc with rfl | hc
        · exact hd.1
        · exact hds c hc
      obtain ⟨i1, i2, i3⟩ := ih (n / 10) (Nat.digitChar (n % 10) :: ds) hlt hds'
      refine ⟨i1, ?_, i3⟩
      rw [i2, digitsValue_cons, hd.2.1, List.length_cons, pow_succ]
      have h10 : n = 10 * (n / 10) + n % 10 := (Nat.div_add_mod n 10).symm
      conv_rhs => rw [h10]
      ring

/-- The decimal digits of `n`: digits only, not empty, with value `n`. -/
theorem toDigits_spec (n : Nat) :
    (∀ c ∈ Nat.toDigits 10 n, isdigit c = true) ∧
    digitsValue (Nat.toDigits 10 n) = n ∧
    ∃ c t, Nat.toDigits 10 n = c :: t ∧ isspace c = false ∧ c ≠ '-' ∧ c ≠ '+' := by
  have h := toDigitsCore_spec (n + 1) n [] (by omega) (by simp)
  unfold Nat.toDigits
  refine ⟨h.1, ?_, h.2.2⟩
  rw [h.2.1]
  simp [digitsValue]

/-- No decimal digit is a newline. -/
theorem newline_not_mem_toDigits (n : Nat) : '\n' ∉ Nat.toDigits 10 n := by
  intro h
  have := (toDigits_spec n).1 _ h
  exact absurd this (by decide)

/-- `lineStream >> n` on a blank followed by the decimal digits of a number
that fits `uint64_t` stores that number. -/
theorem extractUInt64_toDigits (n old : Nat) (hn : n < 2 ^ 64) :
    extractUInt64 (' ' :: Nat.toDigits 10 n) old = n := by
  obtain ⟨hall, hval, c, t, hct, hsp, hminus, hplus⟩ := toDigits_spec n
  have htw : (Nat.toDigits 10 n).takeWhile isdigit = Nat.toDigits 10 n :=
    List.takeWhile_eq_self_iff.mpr hall
  rw [hct] at htw hval
  unfold extractUInt64 skipws
  rw [hct, List.dropWhile_cons_of_pos (by decide), List.dropWhile_cons_of_neg (by simp [hsp])]
  simp only []
  unfold numGetUInt64
  have hb : (match c :: t with
      | '-' :: r => (true, r)
      | '+' :: r => (false, r)
      | _ => (false, c :: t)) = (false, c :: t) := by
    split
    · rename_i r heq
      injection heq with h1 _
      exact absurd h1 hminus
    · rename_i r heq
      injection heq with h1 _
      exact absurd h1 hplus
    · rfl
  rw [hb]
  simp only [htw, hval, List.isEmpty_cons, Bool.false_eq_true, if_false]
  rw [if_neg (by omega)]

/-- A line `POINTS <digits>` has keyword `POINTS` and the blank and digits as
the rest. -/
theorem pointsLine_parts (ds : List Char) :
    keywordOf ("POINTS ".toList ++ ds) = kwPOINTS ∧ argsOf ("POINTS ".toList ++ ds) = ' ' :: ds := by
  constructor <;> rfl

/-- The loop body on a line whose keyword is `POINTS`. -/
theorem processLine_POINTS (h : Header) (l : List Char) (hk : keywordOf l = kwPOINTS) :
    processLine split h l = ({ h with points := extractUInt64 (argsOf l) h.points }, false) := by
  rw [processLine_eq, hk]
  rfl

/-- The loop body on a line whose keyword is `DATA`. -/
theorem processLine_DATA (h : Header) (l : List Char) (hk : keywordOf l = kwDATA) :
    processLine split h l =
      ({ h with data := (extractString (argsOf l)).elim h.data Prod.fst }, true) := by
  rw [processLine_eq, hk]
  rfl

/-- Only a line with keyword `POINTS` writes `points`. -/
theorem processLine_points (h : Header) (l : List Char) (hk : keywordOf l ≠ kwPOINTS) :
    (processLine split h l).1.points = h.points := by
  rw [processLine_eq]
  apply processKeyword_cases split (fun q => q.1.points = h.points)
  case hpoints => intro hp; exact absurd hp hk
  all_goals intros; rfl

theorem runLines_points (h : Header) (ls : List (List Char))
    (hk : ∀ l ∈ ls, keywordOf l ≠ kwPOINTS) : (runLines split h ls).points = h.points := by
  induction ls generalizing h with
  | nil => rfl
  | cons l t ih =>
    unfold runLines
    rw [List.foldl_cons]
    have := ih (processLine split h l).1 (fun x hx => hk x (List.mem_cons_of_mem _ hx))
    unfold runLines at this
    rw [this, processLine_points split h l (hk l (List.mem_cons_self _ _))]

theorem runLines_append (h : Header) (ls ms : List (List Char)) :
    runLines split h (ls ++ ms) = runLines split (runLines split h ls) ms := by
  unfold runLines
  rw [List.foldl_append]

theorem unlines_append (ls ms : List (List Char)) :
    unlines (ls ++ ms) = unlines ls ++ unlines ms := by
  induction ls with
  | nil => rfl
  | cons l t ih => simp [unlines, ih]

/-- The header loop over a run of newline-terminated lines none of which leaves
the loop: the members are those of `runLines`, the stream stands after the
run. -/
theorem headerLoop_lines (ls : List (List Char)) (n : Nat) (r : PCDPointReader Point)
    (line rest : List Char) (p : Nat)
    (hls : ∀ l ∈ ls, '\n' ∉ l ∧ leavesLoop split l = false)
    (hs : r.stream = { buf := unlines ls ++ rest, pos := p, eofbit := false, failbit := false }) :
    headerLoop split (n + ls.length) r line =
      headerLoop split n
        { r with toHeader := runLines split r.toHeader ls
                 stream := { buf := rest, pos := p + (unlines ls).length, eofbit := false,
                             failbit := false } }
        (ls.getLast?.getD line) := by
  induction ls generalizing r line p with
  | nil =>
    have : r = { r with toHeader := runLines split r.toHeader []
                        stream := { buf := rest, pos := p + (unlines []).length,
                                    eofbit := false, failbit := false } } := by
      cases r
      simp only [unlines, List.nil_append] at hs
      simp [runLines, unlines, hs]
    rw [← this]
    rfl
  | cons l t ih =>
    have hl := hls l (List.mem_cons_self _ _)
    have e : n + (l :: t).length = (n + t.length) + 1 := by simp; omega
    have hs' : r.stream = ⟨l ++ '\n' :: (unlines t ++ rest), p, false, false⟩ := by
      rw [hs]; simp [unlines]
    rw [e, headerLoop_line split (n + t.length) r l (unlines t ++ rest) line p hl.1 hs', hl.2]
    simp only [Bool.false_eq_true, if_false]
    rw [ih _ l (p + l.length + 1) (fun x hx => hls x (List.mem_cons_of_mem _ hx)) rfl]
    have e2 : (l :: t).getLast?.getD line = t.getLast?.getD l := by
      cases t with
      | nil => rfl
      | cons a b =>
        rw [List.getLast?_cons_cons, List.getLast?_eq_getLast _ (List.cons_ne_nil a b)]
        rfl
    rw [e2]
    congr 2
    simp [unlines]
    omega

end PointsLemmas

section HeaderRuns

variable {Point : Type}
variable (split : List Char → List Char → List (List Char))

theorem length_le_length_unlines (ls : List (List Char)) : ls.length ≤ (unlines ls).length := by
  induction ls with
  | nil => simp [unlines]
  | cons l t ih => simp [unlines]; omega

/-- The header loop on a file whose header is a run of lines that do not leave
the loop followed by a DATA line: it stops after the DATA line. -/
theorem headerLoop_header (ls : List (List Char)) (dl body : List Char) (n : Nat) (point : Point)
    (hls : ∀ l ∈ ls, '\n' ∉ l ∧ leavesLoop split l = false)
    (hdl : '\n' ∉ dl ∧ keywordOf dl = kwDATA) :
    headerLoop split (n + 1 + ls.length)
        (PCDPointReader.init point (IStream.openFile (some (unlines (ls ++ [dl]) ++ body)))) [] =
      some { toHeader := (processLine split (runLines split Header.init ls) dl).1
             point := point
             stream := { buf := body, pos := (unlines (ls ++ [dl])).length, eofbit := false,
                         failbit := false } } := by
  have hs : (PCDPointReader.init point
      (IStream.openFile (some (unlines (ls ++ [dl]) ++ body)))).stream =
      ⟨unlines ls ++ (dl ++ '\n' :: body), 0, false, false⟩ := by
    simp [PCDPointReader.init, IStream.openFile, unlines_append, unlines]
  rw [headerLoop_lines split ls (n + 1) _ [] (dl ++ '\n' :: body) 0 hls hs]
  have hb : leavesLoop split dl = true := by
    rw [← processLine_snd split Header.init dl, processLine_DATA split _ dl hdl.2]
  rw [headerLoop_line split n _ dl body _ (0 + (unlines ls).length) hdl.1 rfl, hb]
  simp only [if_true]
  congr 3
  simp [unlines_append, unlines]
  omega

/-- The constructor on such a file: when it returns a reader, the header
members of the reader are those left by the loop body run over the header
lines in order. -/
theorem openBytes_header (ls : List (List Char)) (dl body : List Char) (point : Point)
    (r : PCDPointReader Point)
    (hls : ∀ l ∈ ls, '\n' ∉ l ∧ leavesLoop split l = false)
    (hdl : '\n' ∉ dl ∧ keywordOf dl = kwDATA)
    (hopen : PCDPointReader.openBytes split point (unlines (ls ++ [dl]) ++ body) = some (.ok r)) :
    r.toHeader = (processLine split (runLines split Header.init ls) dl).1 := by
  unfold PCDPointReader.openBytes PCDPointReader.new at hopen
  have hlen : ls.length + 1 ≤ (unlines (ls ++ [dl]) ++ body).length + 2 := by
    have := length_le_length_unlines (ls ++ [dl])
    simp at this ⊢
    omega
  obtain ⟨k, hk⟩ := Nat.exists_eq_add_of_le hlen
  have h := headerLoop_fuel_mono split _ k _ _ _
    (headerLoop_header split ls dl body 0 point hls hdl)
  have e : 0 + 1 + ls.length + k = (unlines (ls ++ [dl]) ++ body).length + 2 := by omega
  rw [e] at h
  rw [h] at hopen
  simp only [finishOpen_eq, Option.some.injEq] at hopen
  split_ifs at hopen
  injection hopen with hopen
  rw [← hopen]
  rfl

end HeaderRuns

/-! ## Lemmas on whole headers -/

section ParseLemmas

variable {Point : Type}
variable (split : List Char → List Char → List (List Char))

/-- A keyword that is none of the eight member-writing ones leaves the header
members as they are. -/
theorem processKeyword_fst_same (h : Header) (k ls : List Char)
    (h1 : k ≠ kwFIELDS) (h2 : k ≠ kwSIZE) (h3 : k ≠ kwTYPE) (h4 : k ≠ kwCOUNT)
    (h5 : k ≠ kwWIDTH) (h6 : k ≠ kwHEIGHT) (h7 : k ≠ kwPOINTS) (h8 : k ≠ kwDATA) :
    (processKeyword split h k ls).1 = h := by
  apply processKeyword_cases split (fun q => q.1 = h)
  case hsame => intros; rfl
  case hfields => intro hk; exact absurd hk h1
  case hsizes => intro hk; exact absurd hk h2
  case htypes => intro hk; exact absurd hk h3
  case hcounts => intro hk; exact absurd hk h4
  case hwidth => intro hk; exact absurd hk h5
  case hheight => intro hk; exact absurd hk h6
  case hpoints => intro hk; exact absurd hk h7
  case hdata => intro hk; exact absurd hk h8

/-- A line whose keyword is not recognised and does not start with `#` runs
into the final `else`: nothing changes and the loop goes on. -/
theorem processLine_unrecognized (h : Header) (u : List Char)
    (hu : keywordOf u ∉ recognizedKeywords) : processLine split h u = (h, false) := by
  have hne : ∀ k ∈ recognizedKeywords, keywordOf u ≠ k := fun k hk he => hu (he ▸ hk)
  rw [processLine_eq]
  unfold processKeyword
  by_cases c0 : (keywordOf u).head? = some '#'
  · rw [if_pos c0]
  rw [if_neg c0, if_neg (hne kwVERSION (by decide)), if_neg (hne kwFIELDS (by decide)),
    if_neg (hne kwSIZE (by decide)), if_neg (hne kwTYPE (by decide)),
    if_neg (hne kwCOUNT (by decide)), if_neg (hne kwWIDTH (by decide)),
    if_neg (hne kwHEIGHT (by decide)), if_neg (hne kwVIEWPOINT (by decide)),
    if_neg (hne kwPOINTS (by decide)), if_neg (hne kwDATA (by decide))]

/-- The three checked lists after the loop body depend on the three lists
before it and on the line only. -/
theorem processLine_lists_congr (h h' : Header) (l : List Char) (hl : h.lists = h'.lists) :
    (processLine split h l).1.lists = (processLine split h' l).1.lists := by
  have hf : h.fields = h'.fields := congrArg Prod.fst hl
  have hs : h.sizes = h'.sizes := congrArg (fun t => t.2.1) hl
  have ht : h.types = h'.types := congrArg (fun t => t.2.2) hl
  rw [processLine_eq, processLine_eq]
  apply processKeyword_cases split
    (fun q => q.1.lists = (processKeyword split h' (keywordOf l) (argsOf l)).1.lists)
  case hsame =>
    intro h1 h2 h3 h4 h5 h6 h7 h8 b
    rw [processKeyword_fst_same split h' _ _ h1 h2 h3 h4 h5 h6 h7 h8]
    exact hl
  case hfields =>
    intro hk; rw [hk]
    show (_, _, _) = (_, _, _)
    rw [hf, hs, ht]; rfl
  case hsizes =>
    intro hk; rw [hk]
    show (_, _, _) = (_, _, _)
    rw [hf, hs, ht]; rfl
  case htypes =>
    intro hk; rw [hk]
    show (_, _, _) = (_, _, _)
    rw [hf, hs, ht]; rfl
  case hcounts =>
    intro hk; rw [hk]
    show (_, _, _) = (_, _, _)
    rw [hf, hs, ht]; rfl
  case hwidth =>
    intro hk; rw [hk]
    show (_, _, _) = (_, _, _)
    rw [hf, hs, ht]; rfl
  case hheight =>
    intro hk; rw [hk]
    show (_, _, _) = (_, _, _)
    rw [hf, hs, ht]; rfl
  case hpoints =>
    intro hk; rw [hk]
    show (_, _, _) = (_, _, _)
    rw [hf, hs, ht]; rfl
  case hdata =>
    intro hk; rw [hk]
    show (_, _, _) = (_, _, _)
    rw [hf, hs, ht]; rfl

/-- A line whose keyword is not `FIELDS`, `SIZE` or `TYPE` leaves the three
checked lists as they are. -/
theorem processLine_lists_same (h : Header) (l : List Char)
    (h1 : keywordOf l ≠ kwFIELDS) (h2 : keywordOf l ≠ kwSIZE) (h3 : keywordOf l ≠ kwTYPE) :
    (processLine split h l).1.lists = h.lists := by
  rw [processLine_eq]
  apply processKeyword_cases split (fun q => q.1.lists = h.lists)
  case hfields => intro hk; exact absurd hk h1
  case hsizes => intro hk; exact absurd hk h2
  case htypes => intro hk; exact absurd hk h3
  all_goals intros; rfl

theorem parseLines_lists_congr (h h' : Header) (ls : List (List Char))
    (hl : h.lists = h'.lists) :
    (parseLines split h ls).1.lists = (parseLines split h' ls).1.lists ∧
    (parseLines split h ls).2 = (parseLines split h' ls).2 := by
  induction ls generalizing h h' with
  | nil => exact ⟨hl, rfl⟩
  | cons l t ih =>
    unfold parseLines
    rw [processLine_snd split h l, processLine_snd split h' l]
    split_ifs with hb
    · exact ⟨processLine_lists_congr split h h' l hl, rfl⟩
    · exact ih _ _ (processLine_lists_congr split h h' l hl)

/-- Dropping from a header a line that neither leaves the loop nor changes the
three checked lists changes neither those lists nor where the loop is left. -/
theorem parseLines_insert_lists (h : Header) (ls1 rest : List (List Char)) (c : List Char)
    (hc1 : leavesLoop split c = false)
    (hc2 : ∀ x : Header, (processLine split x c).1.lists = x.lists) :
    (parseLines split h (ls1 ++ c :: rest)).1.lists = (parseLines split h (ls1 ++ rest)).1.lists ∧
    (parseLines split h (ls1 ++ c :: rest)).2 = (parseLines split h (ls1 ++ rest)).2 := by
  induction ls1 generalizing h with
  | nil =>
    show (parseLines split h (c :: rest)).1.lists = _ ∧ (parseLines split h (c :: rest)).2 = _
    rw [parseLines, processLine_snd split h c, hc1]
    simp only [Bool.false_eq_true, if_false]
    exact parseLines_lists_congr split _ _ rest (hc2 h)
  | cons l t ih =>
    show (parseLines split h (l :: (t ++ c :: rest))).1.lists =
        (parseLines split h (l :: (t ++ rest))).1.lists ∧
      (parseLines split h (l :: (t ++ c :: rest))).2 = (parseLines split h (l :: (t ++ rest))).2
    rw [parseLines, parseLines]
    split_ifs with hb
    · exact ⟨rfl, rfl⟩
    · exact ih _

/-- Dropping from a header a line on which the loop body does nothing changes
nothing. -/
theorem parseLines_insert_noop (h : Header) (ls1 rest : List (List Char)) (u : List Char)
    (hu : ∀ x : Header, processLine split x u = (x, false)) :
    parseLines split h (ls1 ++ u :: rest) = parseLines split h (ls1 ++ rest) := by
  induction ls1 generalizing h with
  | nil =>
    show parseLines split h (u :: rest) = parseLines split h rest
    rw [parseLines, hu h]
    simp
  | cons l t ih =>
    show parseLines split h (l :: (t ++ u :: rest)) = parseLines split h (l :: (t ++ rest))
    rw [parseLines, parseLines, ih]

/-- A header that ends with a DATA line is always left with `break`. -/
theorem parseLines_data_leaves (h : Header) (ls : List (List Char)) (dl : List Char)
    (hdl : keywordOf dl = kwDATA) : (parseLines split h (ls ++ [dl])).2 = true := by
  induction ls generalizing h with
  | nil =>
    show (parseLines split h [dl]).2 = true
    rw [parseLines, processLine_DATA split h dl hdl]
    rfl
  | cons l t ih =>
    show (parseLines split h (l :: (t ++ [dl]))).2 = true
    rw [parseLines]
    split_ifs with hb
    · rfl
    · exact ih _

/-- Without a line that leaves the loop, `parseLines` is `runLines`. -/
theorem parseLines_eq_runLines (h : Header) (ls : List (List Char))
    (hls : ∀ l ∈ ls, leavesLoop split l = false) :
    parseLines split h ls = (runLines split h ls, false) := by
  induction ls generalizing h with
  | nil => rfl
  | cons l t ih =>
    rw [parseLines, processLine_snd split h l, hls l (List.mem_cons_self _ _)]
    simp only [Bool.false_eq_true, if_false]
    rw [ih _ (fun x hx => hls x (List.mem_cons_of_mem _ hx))]
    rfl

/-- The header loop over newline-terminated lines on one of which the loop body
leaves the loop: the header members are those of `parseLines`. -/
theorem headerLoop_parse (ls : List (List Char)) (n : Nat) (r : PCDPointReader Point)
    (line rest : List Char) (p : Nat)
    (hnl : ∀ l ∈ ls, '\n' ∉ l)
    (hs : r.stream = { buf := unlines ls ++ rest, pos := p, eofbit := false, failbit := false })
    (hb : (parseLines split r.toHeader ls).2 = true) :
    ∃ s, headerLoop split (n + ls.length) r line =
      some { r with toHeader := (parseLines split r.toHeader ls).1, stream := s } := by
  induction ls generalizing r line p with
  | nil => exact absurd hb (by simp [parseLines])
  | cons l t ih =>
    have e : n + (l :: t).length = (n + t.length) + 1 := by simp; omega
    have hs' : r.stream = ⟨l ++ '\n' :: (unlines t ++ rest), p, false, false⟩ := by
      rw [hs]; simp [unlines]
    rw [e, headerLoop_line split (n + t.length) r l (unlines t ++ rest) line p
      (hnl l (List.mem_cons_self _ _)) hs']
    rw [parseLines, processLine_snd split r.toHeader l] at hb ⊢
    by_cases hl : leavesLoop split l = true
    · simp only [if_pos hl]
      exact ⟨_, rfl⟩
    · simp only [if_neg hl] at hb ⊢
      exact ih
        { r with toHeader := (processLine split r.toHeader l).1
                 stream := ⟨unlines t ++ rest, p + l.length + 1, false, false⟩ }
        l (p + l.length + 1) (fun x hx => hnl x (List.mem_cons_of_mem _ hx)) rfl hb

/-- The constructor on a file whose header ends with a DATA line: it finishes
with the header members of `parseLines`, whatever follows the header. -/
theorem openBytes_parse (ls : List (List Char)) (dl body : List Char) (point : Point)
    (hnl : ∀ l ∈ ls, '\n' ∉ l) (hdl : '\n' ∉ dl ∧ keywordOf dl = kwDATA) :
    ∃ s, PCDPointReader.openBytes split point (unlines (ls ++ [dl]) ++ body) =
      some (finishOpen { toHeader := (parseLines split Header.init (ls ++ [dl])).1
                         point := point, stream := s }) := by
  unfold PCDPointReader.openBytes PCDPointReader.new
  have hlen : (ls ++ [dl]).length ≤ (unlines (ls ++ [dl]) ++ body).length + 2 := by
    have h1 := length_le_length_unlines (ls ++ [dl])
    have h2 : (unlines (ls ++ [dl]) ++ body).length =
        (unlines (ls ++ [dl])).length + body.length := List.length_append _ _
    omega
  obtain ⟨k, hk⟩ := Nat.exists_eq_add_of_le hlen
  have hnl' : ∀ l ∈ ls ++ [dl], '\n' ∉ l := by
    intro l hl
    rcases List.mem_append.mp hl with h | h
    · exact hnl l h
    · rw [List.mem_singleton.mp h]; exact hdl.1
  obtain ⟨s, hs⟩ := headerLoop_parse split (ls ++ [dl]) k
    (PCDPointReader.init point (IStream.openFile (some (unlines (ls ++ [dl]) ++ body))))
    [] body 0 hnl' rfl (parseLines_data_leaves split _ ls dl hdl.2)
  rw [hk, Nat.add_comm, hs]
  exact ⟨s, rfl⟩

/-- What `finishOpen` leaves of the header is decided by the header members
alone. -/
theorem metadata_finishOpen (r : PCDPointReader Point) :
    metadata (some (finishOpen r)) =
      some (if r.fields.length ≠ r.sizes.length ∨ r.sizes.length ≠ r.types.length then
        .error (Exception.PotreeException "Integrity check failed.")
      else .ok r.toHeader) := by
  rw [finishOpen_eq]
  split_ifs <;> rfl

theorem opens_finishOpen (r : PCDPointReader Point) :
    opens (some (finishOpen r)) =
      decide (r.fields.length = r.sizes.length ∧ r.sizes.length = r.types.length) := by
  rw [finishOpen_eq]
  by_cases h : r.fields.length ≠ r.sizes.length ∨ r.sizes.length ≠ r.types.length
  · rw [if_pos h]
    have : ¬ (r.fields.length = r.sizes.length ∧ r.sizes.length = r.types.length) := by
      rintro ⟨a, b⟩
      rcases h with h | h
      · exact h a
      · exact h b
    simp [opens, this]
  · rw [if_neg h]
    have : r.fields.length = r.sizes.length ∧ r.sizes.length = r.types.length := by
      constructor
      · by_contra hc; exact h (Or.inl hc)
      · by_contra hc; exact h (Or.inr hc)
    simp [opens, this]

end ParseLemmas

section OutcomeLemmas

variable {Point : Type}
variable (split : List Char → List Char → List (List Char))

/-- What the constructor leaves of a header that ends with a DATA line, in
terms of the header lines alone. -/
theorem metadata_openBytes (ls : List (List Char)) (dl body : List Char) (point : Point)
    (hnl : ∀ l ∈ ls, '\n' ∉ l) (hdl : '\n' ∉ dl ∧ keywordOf dl = kwDATA) :
    metadata (PCDPointReader.openBytes split point (unlines (ls ++ [dl]) ++ body)) =
      some (if (parseLines split Header.init (ls ++ [dl])).1.fields.length ≠
                (parseLines split Header.init (ls ++ [dl])).1.sizes.length ∨
              (parseLines split Header.init (ls ++ [dl])).1.sizes.length ≠
                (parseLines split Header.init (ls ++ [dl])).1.types.length then
        .error (Exception.PotreeException "Integrity check failed.")
      else .ok (parseLines split Header.init (ls ++ [dl])).1) := by
  obtain ⟨s, hs⟩ := openBytes_parse split ls dl body point hnl hdl
  rw [hs, metadata_finishOpen]

/-- Whether the constructor returns a reader for a header that ends with a DATA
line, in terms of the three checked lists. -/
theorem opens_openBytes (ls : List (List Char)) (dl body : List Char) (point : Point)
    (hnl : ∀ l ∈ ls, '\n' ∉ l) (hdl : '\n' ∉ dl ∧ keywordOf dl = kwDATA) :
    opens (PCDPointReader.openBytes split point (unlines (ls ++ [dl]) ++ body)) =
      decide ((parseLines split Header.init (ls ++ [dl])).1.lists.1.length =
                (parseLines split Header.init (ls ++ [dl])).1.lists.2.1.length ∧
              (parseLines split Header.init (ls ++ [dl])).1.lists.2.1.length =
                (parseLines split Header.init (ls ++ [dl])).1.lists.2.2.length) := by
  obtain ⟨s, hs⟩ := openBytes_parse split ls dl body point hnl hdl
  rw [hs, opens_finishOpen]
  rfl

/-- The loop body on a line whose keyword is `COUNT`. -/
theorem processLine_COUNT (h : Header) (l : List Char) (hk : keywordOf l = kwCOUNT) :
    processLine split h l =
      ({ h with counts := pushAll extractUInt8 (argsOf l) h.counts }, false) := by
  rw [processLine_eq, hk]
  rfl

/-- The loop body on a line whose keyword is `SIZE`. -/
theorem processLine_SIZE (h : Header) (l : List Char) (hk : keywordOf l = kwSIZE) :
    processLine split h l =
      ({ h with sizes := pushAll extractUInt8 (argsOf l) h.sizes }, false) := by
  rw [processLine_eq, hk]
  rfl

/-- The loop body on a line whose keyword is `TYPE`. -/
theorem processLine_TYPE (h : Header) (l : List Char) (hk : keywordOf l = kwTYPE) :
    processLine split h l =
      ({ h with types := pushAll extractChar (argsOf l) h.types }, false) := by
  rw [processLine_eq, hk]
  rfl

/-- Two headers that differ in their closing DATA line only have the same three
checked lists. -/
theorem parseLines_data_lists (h : Header) (ls : List (List Char)) (dl dl' : List Char)
    (hdl : keywordOf dl = kwDATA) (hdl' : keywordOf dl' = kwDATA) :
    (parseLines split h (ls ++ [dl])).1.lists = (parseLines split h (ls ++ [dl'])).1.lists := by
  induction ls generalizing h with
  | nil =>
    have a : ∀ d : List Char, keywordOf d = kwDATA →
        (parseLines split h [d]).1.lists = h.lists := by
      intro d hd
      rw [parseLines, processLine_DATA split h d hd]
      rfl
    show (parseLines split h [dl]).1.lists = (parseLines split h [dl']).1.lists
    rw [a dl hdl, a dl' hdl']
  | cons l t ih =>
    show (parseLines split h (l :: (t ++ [dl]))).1.lists =
      (parseLines split h (l :: (t ++ [dl']))).1.lists
    rw [parseLines, parseLines]
    split_ifs with hb
    · rfl
    · exact ih _

end OutcomeLemmas

/-! ## Lemmas on the extraction loops -/

section ExtractionLemmas

/-- What the whitespace skip leaves starts with a non-whitespace character and
is no longer than the input; the skipped characters are all whitespace. -/
theorem skipws_cons (cs : List Char) (c : Char) (r : List Char) (h : skipws cs = c :: r) :
    isspace c = false ∧ r.length < cs.length ∧
      nonSpaceChars cs = c :: nonSpaceChars r ∧ wordsOf cs = wordsOf (c :: r) := by
  induction cs with
  | nil => simp [skipws] at h
  | cons a t ih =>
    unfold skipws at h ih
    by_cases ha : isspace a = true
    · rw [List.dropWhile_cons_of_pos ha] at h
      obtain ⟨h1, h2, h3, h4⟩ := ih h
      refine ⟨h1, by simp; omega, ?_, ?_⟩
      · unfold nonSpaceChars at h3 ⊢
        rw [List.filter_cons_of_neg (by simp [ha])]
        exact h3
      · rw [← h4]
        unfold wordsOf
        rw [List.splitOnP_cons, if_pos ha, List.filter_cons_of_neg (by simp)]
    · rw [List.dropWhile_cons_of_neg ha] at h
      injection h with h1 h2
      subst h1 h2
      refine ⟨by simpa using ha, by simp, ?_, rfl⟩
      unfold nonSpaceChars
      rw [List.filter_cons_of_pos (by simpa using ha)]

theorem skipws_nil (cs : List Char) (h : skipws cs = []) :
    nonSpaceChars cs = [] ∧ wordsOf cs = [] := by
  induction cs with
  | nil => exact ⟨rfl, rfl⟩
  | cons a t ih =>
    unfold skipws at h ih
    by_cases ha : isspace a = true
    · rw [List.dropWhile_cons_of_pos ha] at h
      obtain ⟨h3, h4⟩ := ih h
      constructor
      · unfold nonSpaceChars at h3 ⊢
        rw [List.filter_cons_of_neg (by simp [ha])]
        exact h3
      · rw [← h4]
        unfold wordsOf
        rw [List.splitOnP_cons, if_pos ha, List.filter_cons_of_neg (by simp)]
    · rw [List.dropWhile_cons_of_neg ha] at h
      exact absurd h (by simp)

/-- The loop `while (lineStream >> c) v.push_back(c)` for `char` appends the
non-whitespace characters of the line, one entry per character. -/
theorem extractLoop_extractChar (fuel : Nat) (cs v : List Char) (hf : cs.length ≤ fuel) :
    extractLoop extractChar fuel cs v = v ++ nonSpaceChars cs := by
  induction fuel generalizing cs v with
  | zero =>
    have : cs = [] := List.length_eq_zero.mp (by omega)
    subst this
    simp [extractLoop, nonSpaceChars]
  | succ n ih =>
    rw [extractLoop]
    cases hs : skipws cs with
    | nil =>
      have he : extractChar cs = none := by unfold extractChar; rw [hs]
      rw [he, (skipws_nil cs hs).1, List.append_nil]
    | cons c r =>
      have he : extractChar cs = some (c, r) := by unfold extractChar; rw [hs]
      obtain ⟨_, h2, h3, _⟩ := skipws_cons cs c r hs
      rw [he]
      simp only []
      rw [ih r (v ++ [c]) (by omega), h3]
      simp

/-- The loop `while (lineStream >> b) v.push_back(b)` for `uint8_t` appends the
byte values of the non-whitespace characters of the line, one entry per
character. -/
theorem extractLoop_extractUInt8 (fuel : Nat) (cs : List Char) (v : List Nat)
    (hf : cs.length ≤ fuel) :
    extractLoop extractUInt8 fuel cs v =
      v ++ (nonSpaceChars cs).map (fun c => c.toNat % 256) := by
  induction fuel generalizing cs v with
  | zero =>
    have : cs = [] := List.length_eq_zero.mp (by omega)
    subst this
    simp [extractLoop, nonSpaceChars]
  | succ n ih =>
    rw [extractLoop]
    cases hs : skipws cs with
    | nil =>
      have he : extractUInt8 cs = none := by unfold extractUInt8; rw [hs]
      rw [he, (skipws_nil cs hs).1, List.map_nil, List.append_nil]
    | cons c r =>
      have he : extractUInt8 cs = some (c.toNat % 256, r) := by unfold extractUInt8; rw [hs]
      obtain ⟨_, h2, h3, _⟩ := skipws_cons cs c r hs
      rw [he]
      simp only []
      rw [ih r (v ++ [c.toNat % 256]) (by omega), h3]
      simp

/-- The whitespace-separated tokens of a list that starts with a
non-whitespace character: the first token is the run of non-whitespace
characters, the others are the tokens of what follows it. -/
theorem wordsOf_cons (c : Char) (r : List Char) (hc : isspace c = false) :
    wordsOf (c :: r) =
      (c :: r).takeWhile (fun x => !isspace x) ::
        wordsOf ((c :: r).dropWhile (fun x => !isspace x)) := by
  have hsplit := List.takeWhile_append_dropWhile (fun x => !isspace x) (c :: r)
  have htw : ∀ x ∈ (c :: r).takeWhile (fun x => !isspace x), ¬ isspace x = true := by
    intro x hx
    have := List.mem_takeWhile_imp hx
    simpa using this
  have hne : (c :: r).takeWhile (fun x => !isspace x) ≠ [] := by
    rw [List.takeWhile_cons_of_pos (by simp [hc])]
    simp
  cases hd : (c :: r).dropWhile (fun x => !isspace x) with
  | nil =>
    rw [hd, List.append_nil] at hsplit
    have h1 : ∀ x ∈ c :: r, ¬ isspace x = true := by
      intro x hx
      rw [← hsplit] at hx
      exact htw x hx
    rw [hsplit] at hne ⊢
    unfold wordsOf
    rw [List.splitOnP_eq_single _ _ h1]
    simp
  | cons sep rest =>
    have hsep : isspace sep = true := by
      have := List.head_dropWhile_not (fun x => !isspace x) (c :: r) (by rw [hd]; simp)
      simp only [hd, List.head_cons] at this
      simpa using this
    rw [hd] at hsplit
    have e1 : wordsOf (c :: r) =
        (c :: r).takeWhile (fun x => !isspace x) :: wordsOf rest := by
      conv_lhs => rw [← hsplit]
      unfold wordsOf
      rw [List.splitOnP_first _ _ htw sep hsep rest, List.filter_cons_of_pos]
      cases h : List.takeWhile (fun x => !isspace x) (c :: r) with
      | nil => exact absurd h hne
      | cons _ _ => rfl
    have e2 : wordsOf (sep :: rest) = wordsOf rest := by
      unfold wordsOf
      rw [List.splitOnP_cons, if_pos hsep, List.filter_cons_of_neg (by simp)]
    rw [e1, e2]

/-- The keyword of a line is its first whitespace-separated token, and the rest
of the line holds the other tokens. -/
theorem wordsOf_line (line : List Char) :
    (wordsOf line).head?.getD [] = keywordOf line ∧
      wordsOf (argsOf line) = (wordsOf line).tail := by
  unfold keywordOf argsOf extractString
  cases hs : skipws line with
  | nil =>
    simp only [Option.elim]
    rw [(skipws_nil line hs).2]
    exact ⟨rfl, rfl⟩
  | cons c r =>
    simp only [Option.elim]
    obtain ⟨h1, _, _, h4⟩ := skipws_cons line c r hs
    rw [h4, wordsOf_cons c r h1]
    exact ⟨rfl, rfl⟩

end ExtractionLemmas

/-! ## Lemmas on headers without a DATA line and on streams that failed to open -/

section EndOfFileLemmas

variable {Point : Type}
variable (split : List Char → List Char → List (List Char))

/-- A line on which the loop body stays in the loop does not write `data`. -/
theorem processLine_data (h : Header) (l : List Char) (hl : leavesLoop split l = false) :
    (processLine split h l).1.data = h.data := by
  have hk : keywordOf l ≠ kwDATA := by
    intro hk
    rw [← processLine_snd split h l, processLine_DATA split h l hk] at hl
    exact absurd hl (by simp)
  rw [processLine_eq]
  apply processKeyword_cases split (fun q => q.1.data = h.data)
  case hdata => intro hd; exact absurd hd hk
  all_goals intros; rfl

theorem runLines_data (h : Header) (ls : List (List Char))
    (hls : ∀ l ∈ ls, leavesLoop split l = false) : (runLines split h ls).data = h.data := by
  induction ls generalizing h with
  | nil => rfl
  | cons l t ih =>
    unfold runLines
    rw [List.foldl_cons]
    have := ih (processLine split h l).1 (fun x hx => hls x (List.mem_cons_of_mem _ hx))
    unfold runLines at this
    rw [this, processLine_data split h l (hls l (List.mem_cons_self _ _))]

/-- The constructor on a file without a line that leaves the loop: the header
loop runs to the end of the file and the constructor finishes with the members
left by all lines. -/
theorem openBytes_no_data (ls : List (List Char)) (last : List Char) (point : Point)
    (hls : ∀ l ∈ ls, '\n' ∉ l ∧ leavesLoop split l = false) (hlast : '\n' ∉ last) :
    PCDPointReader.openBytes split point (unlines ls ++ last) =
      some (finishOpen
        { toHeader := runLines split Header.init (ls ++ [last])
          point := point
          stream := { buf := [], pos := (unlines ls ++ last).length, eofbit := true,
                      failbit := last.isEmpty } }) := by
  unfold PCDPointReader.openBytes PCDPointReader.new
  have hlen : ls.length ≤ (unlines ls ++ last).length := by
    have h1 := length_le_length_unlines ls
    have h2 : (unlines ls ++ last).length = (unlines ls).length + last.length :=
      List.length_append _ _
    omega
  obtain ⟨k, hk⟩ := Nat.exists_eq_add_of_le hlen
  have e : (unlines ls ++ last).length + 2 = (k + 2) + ls.length := by omega
  rw [e, headerLoop_lines split ls (k + 2) _ [] last 0 hls rfl,
    headerLoop_last split k _ last _ (0 + (unlines ls).length) hlast rfl, runLines_append]
  have e2 : 0 + (unlines ls).length + last.length = (unlines ls ++ last).length := by
    rw [List.length_append]; omega
  rw [e2]
  rfl

/-- On a stream whose fail bit is set and whose end-of-file bit is not, the
header loop never leaves: every pass finds `eof()` false, `getline` fails
without touching the empty `line`, and the empty keyword changes nothing. -/
theorem headerLoop_failed_stream (fuel : Nat) (r : PCDPointReader Point)
    (he : r.stream.eofbit = false) (hf : r.stream.failbit = true) :
    headerLoop split fuel r [] = none := by
  induction fuel generalizing r with
  | zero => rfl
  | succ n ih =>
    have hg : getline r.stream [] = ({ r.stream with failbit := true }, []) := by
      unfold getline
      simp [IStream.good, he, hf]
    rw [headerLoop]
    simp only [IStream.eof, he, Bool.false_eq_true, if_false, hg, processLine_nil]
    exact ih _ rfl rfl

end EndOfFileLemmas

/-! ## Lemmas on the closing DATA line and on `atoi` -/

section DataLineLemmas

variable (split : List Char → List Char → List (List Char))

/-- The conversion to `int` in `atoi`: version numbers from 2^31 on do not keep
their value, so `VERSION 0.2147483648` is rejected like `VERSION 0.6`, while
`VERSION 0.7` is accepted. -/
theorem atoi_int_range :
    atoi "2147483648".toList = -2147483648 ∧ atoi "4294967296".toList = 0 ∧
    atoi " -12abc".toList = -12 ∧
    leavesLoop splitTokens "VERSION 0.2147483648".toList = true ∧
    leavesLoop splitTokens "VERSION 0.6".toList = true ∧
    leavesLoop splitTokens "VERSION 0.7".toList = false := by
  decide

/-- The header members after a run of lines that stay in the loop followed by a
DATA line: those of the run, with `data` replaced by the first token after the
keyword when there is one. -/
theorem parseLines_append_data (h : Header) (ls : List (List Char)) (dl : List Char)
    (hls : ∀ l ∈ ls, leavesLoop split l = false) (hdl : keywordOf dl = kwDATA) :
    parseLines split h (ls ++ [dl]) =
      ({ runLines split h ls with
          data := (extractString (argsOf dl)).elim (runLines split h ls).data Prod.fst }, true) := by
  induction ls generalizing h with
  | nil =>
    show parseLines split h [dl] = _
    rw [parseLines, processLine_DATA split h dl hdl]
    rfl
  | cons l t ih =>
    show parseLines split h (l :: (t ++ [dl])) = _
    rw [parseLines, processLine_snd split h l, hls l (List.mem_cons_self _ _)]
    simp only [Bool.false_eq_true, if_false]
    rw [ih _ (fun x hx => hls x (List.mem_cons_of_mem _ hx))]
    rfl

/-- The first token after the keyword of a line, empty when there is none, in
terms of the whitespace-separated tokens of the line. -/
theorem first_argument_eq (line : List Char) :
    (extractString (argsOf line)).elim [] Prod.fst = ((wordsOf line).tail.head?).getD [] := by
  have h1 := (wordsOf_line (argsOf line)).1
  have h2 := (wordsOf_line line).2
  rw [h2] at h1
  rw [h1]
  rfl

end DataLineLemmas

/-! ## Claims -/

section Claims

variable {Point : Type}
variable (split : List Char → List Char → List (List Char))

/-- C1: whenever the header loop leaves with name, byte-width and numeric-kind
lists that do not all have the same length, the constructor throws
`PotreeException("Integrity check failed.")` and yields no reader; whenever the
constructor yields a reader, its `fields`, `sizes` and `types` lists have equal
length; and for every file that could be opened the constructor does one of
the two. -/
theorem open_checks_list_lengths (fuel : Nat) (point : Point) (stream : IStream) :
    (∀ h, headerLoop split fuel (PCDPointReader.init point stream) [] = some h →
        (h.fields.length ≠ h.sizes.length ∨ h.sizes.length ≠ h.types.length) →
        PCDPointReader.new split fuel point stream =
          some (.error (Exception.PotreeException "Integrity check failed."))) ∧
    (∀ r, PCDPointReader.new split fuel point stream = some (.ok r) →
        r.fields.length = r.sizes.length ∧ r.sizes.length = r.types.length) ∧
    (∀ bytes, (PCDPointReader.openBytes split point bytes).isSome = true) := by
  refine ⟨?_, ?_, fun bytes => openBytes_isSome split point bytes⟩
  · intro h hloop hne
    unfold PCDPointReader.new
    rw [hloop]
    simp only [finishOpen_eq, if_pos hne]
  · intro r hr
    unfold PCDPointReader.new at hr
    cases hl : headerLoop split fuel (PCDPointReader.init point stream) [] with
    | none => rw [hl] at hr; exact absurd hr (by simp)
    | some h =>
      rw [hl] at hr
      simp only [finishOpen_eq, Option.some.injEq] at hr
      split_ifs at hr with hc
      have hr' : h.byteReader sizeofFloat = r := by
        injection hr
      subst hr'
      constructor
      · by_contra hx; exact hc (Or.inl hx)
      · by_contra hx; exact hc (Or.inr hx)

/-- Witness for C1: a header with two names and one width is rejected, and the
reader built from a consistent header has three lists of length 3. -/
theorem open_checks_list_lengths_witness :
    PCDPointReader.new splitTokens 40 ()
        (IStream.openFile (some "FIELDS x y\nSIZE 4\nTYPE F\nDATA binary\n".toList)) =
      some (.error (Exception.PotreeException "Integrity check failed.")) ∧
    (["x".toList, "y".toList, "z".toList].length = [52, 52, 52].length ∧
      [52, 52, 52].length = ['F', 'F', 'F'].length) :=
  ⟨(open_checks_list_lengths splitTokens 40 ()
      (IStream.openFile (some "FIELDS x y\nSIZE 4\nTYPE F\nDATA binary\n".toList))).1
      { point := (),
        stream := { buf := [], pos := 37, eofbit := false, failbit := false },
        height := 0, width := 0, points := 0,
        fields := ["x".toList, "y".toList], sizes := [52], types := ['F'],
        counts := [], data := "binary".toList }
      (by decide) (by decide),
   (open_checks_list_lengths splitTokens 40 ()
      (IStream.openFile (some "FIELDS x y z\nSIZE 4 4 4\nTYPE F F F\nDATA ascii\n".toList))).2.1
      { point := (),
        stream := { buf := [], pos := 46, eofbit := true, failbit := true },
        height := 0, width := 0, points := 0,
        fields := ["x".toList, "y".toList, "z".toList], sizes := [52, 52, 52],
        types := ['F', 'F', 'F'], counts := [], data := "ascii".toList }
      rfl⟩

/-- C2 (failing input): for every `split`, the constructor returns a reader for
the files `VERSION 0.6` and `VERSION 1.0` instead of throwing; whenever the
VERSION branch leaves the loop on the first line of a file, whatever lines
follow, the constructor returns a reader whose header members are the initial
ones; and on a complete file that declares version 0.6 the reader so
constructed answers the next `readNextPoint` with true. -/
theorem unsupported_version_still_opens (point : Point) :
    (∃ r, PCDPointReader.openBytes split point "VERSION 0.6\n".toList = some (.ok r)) ∧
    (∃ r, PCDPointReader.openBytes split point "VERSION 1.0\n".toList = some (.ok r)) ∧
    (∀ v rest : List Char, '\n' ∉ v → keywordOf v = kwVERSION → leavesLoop split v = true →
      ∃ r, PCDPointReader.openBytes split point (v ++ '\n' :: rest) = some (.ok r) ∧
        r.toHeader = Header.init) ∧
    leavesLoop splitTokens "VERSION 0.6".toList = true ∧
    leavesLoop splitTokens "VERSION 1.0".toList = true ∧
    (∃ r, PCDPointReader.openBytes splitTokens point fileVersion06 = some (.ok r) ∧
      r.fields = [] ∧ r.points = 0 ∧ r.data = [] ∧ (r.readNextPoint 0).1 = true) := by
  refine ⟨?_, ?_, ?_, by decide, by decide, ?_⟩
  · obtain ⟨s, h⟩ := version_only_opens split point "VERSION 0.6".toList (by decide) rfl
    exact ⟨_, h⟩
  · obtain ⟨s, h⟩ := version_only_opens split point "VERSION 1.0".toList (by decide) rfl
    exact ⟨_, h⟩
  · intro v rest hv hk hb
    exact rejected_version_opens split point v rest hv hk hb
  · exact ⟨_, rfl, rfl, rfl, rfl, rfl⟩

/-- C3 (failing input): whatever stream the reader was constructed from and
however many `readNextPoint` calls were made, `getPoint` returns the point the
reader was default-constructed with; in particular the binary files that hold
the record (1, 2, 3) and the record (4, 5, 6) both open, both report a next
point, and both hand out that same point. -/
theorem binary_records_not_decoded (point : Point) :
    (∀ fuel stream r, PCDPointReader.new split fuel point stream = some (.ok r) →
        ∀ n count, (PCDPointReader.readMany n count r).2.2.getPoint = point) ∧
    (∃ r, PCDPointReader.openBytes split point (headerBinaryXYZ ++ record123) = some (.ok r) ∧
        (r.readNextPoint 0).1 = true ∧ (r.readNextPoint 0).2.2.getPoint = point) ∧
    (∃ r, PCDPointReader.openBytes split point (headerBinaryXYZ ++ record456) = some (.ok r) ∧
        (r.readNextPoint 0).1 = true ∧ (r.readNextPoint 0).2.2.getPoint = point) := by
  refine ⟨?_, ?_, ?_⟩
  · intro fuel stream r hr n count
    unfold PCDPointReader.getPoint
    rw [readMany_point, new_point split fuel point stream r hr]
  · exact ⟨_, openBytes_binaryXYZ split point _ _ _ _ _, rfl, rfl⟩
  · exact ⟨_, openBytes_binaryXYZ split point _ _ _ _ _, rfl, rfl⟩

/-- C4 (failing input): on the text-mode example file the constructor returns a
reader and the first two `readNextPoint` calls return true, but `getPoint`
returns the default-constructed point after each of them, so it cannot have
position (1, 2, 3) after the first and (4, 5, 6) after the second, whatever the
position of a point is. -/
theorem ascii_example_not_decoded (point : Point) (position : Point → ℚ × ℚ × ℚ) :
    ∃ r, PCDPointReader.openBytes split point fileAsciiExample = some (.ok r) ∧
      (r.readNextPoint 0).1 = true ∧
      (r.readNextPoint 0).2.2.getPoint = point ∧
      ((r.readNextPoint 0).2.2.readNextPoint (r.readNextPoint 0).2.1).1 = true ∧
      ((r.readNextPoint 0).2.2.readNextPoint (r.readNextPoint 0).2.1).2.2.getPoint = point ∧
      ¬ (position (r.readNextPoint 0).2.2.getPoint = (1, 2, 3) ∧
         position ((r.readNextPoint 0).2.2.readNextPoint (r.readNextPoint 0).2.1).2.2.getPoint
           = (4, 5, 6)) := by
  refine ⟨_, openBytes_asciiExample split point, rfl, rfl, rfl, rfl, ?_⟩
  rintro ⟨h1, h2⟩
  have h3 : ((1 : ℚ), (2 : ℚ), (3 : ℚ)) = (4, 5, 6) := h1.symm.trans h2
  have h4 : (1 : ℚ) = 4 := congrArg Prod.fst h3
  norm_num at h4

/-- C5 (failing input): for every reader, whatever point count its header
declared, each of the first 1000 `readNextPoint` calls of the program returns
true; and the file that declares `POINTS 0` opens, reports 0 points, and its
very first `readNextPoint` call returns true. -/
theorem points_zero_still_reads (point : Point) :
    (∀ r : PCDPointReader Point,
        (PCDPointReader.readMany 1000 0 r).1.length = 1000 ∧
        ∀ b ∈ (PCDPointReader.readMany 1000 0 r).1, b = true) ∧
    (∃ r, PCDPointReader.openBytes split point "POINTS 0\nDATA ascii\n".toList = some (.ok r) ∧
        r.numPoints = 0 ∧ (r.readNextPoint 0).1 = true) := by
  refine ⟨?_, ⟨_, rfl, rfl, rfl⟩⟩
  intro r
  rw [(readMany_results 1000 0 r (le_refl _) (by norm_num)).1]
  refine ⟨by rw [List.length_map, List.length_range], ?_⟩
  intro b hb
  obtain ⟨i, hi, rfl⟩ := List.mem_map.mp hb
  have hi' : i < 1000 := List.mem_range.mp hi
  simp only [zero_add, decide_eq_true_eq]
  exact_mod_cast hi'

/-- C6 (failing input): with the counter wrapping as a 32-bit `int`, for every
reader the call number 1001 of the program returns false, so does the call
number 2^31, which leaves the counter at -2^31, and the call after that
returns true again. -/
theorem exhausted_not_sticky (r : PCDPointReader Point) :
    (PCDPointReader.readMany 1001 0 r).1[1000]? = some false ∧
    (PCDPointReader.readMany (2 ^ 31 - 1) 0 r).2.1 = 2 ^ 31 - 1 ∧
    ((PCDPointReader.readMany (2 ^ 31 - 1) 0 r).2.2.readNextPoint (2 ^ 31 - 1)).1 = false ∧
    ((PCDPointReader.readMany (2 ^ 31 - 1) 0 r).2.2.readNextPoint (2 ^ 31 - 1)).2.1
      = -2 ^ 31 ∧
    ∀ r1 : PCDPointReader Point, (r1.readNextPoint (-2 ^ 31)).1 = true := by
  refine ⟨?_, ?_, ?_, ?_, ?_⟩
  · rw [(readMany_results 1001 0 r (le_refl _) (by norm_num)).1, List.getElem?_map,
      List.getElem?_range (by norm_num)]
    rfl
  · have h := (readMany_results (2 ^ 31 - 1) 0 r (le_refl _) (by norm_num)).2
    rw [h]
    norm_num
  · rfl
  · rfl
  · intro r1
    rfl

/-- C7 (counterexample): the file `POINTS 9223372036854775808`, `DATA ascii`
opens, the stored count is 2^63, which fits the 64-bit unsigned field, and
`numPoints` returns -2^63, not 2^63. -/
theorem numPoints_wraps_at_two_pow_63 :
    PCDPointReader.openBytes splitTokens () "POINTS 9223372036854775808\nDATA ascii\n".toList =
      some (Except.ok
        { point := (),
          stream := { buf := [], pos := 38, eofbit := true, failbit := true },
          height := 0, width := 0, points := 9223372036854775808,
          fields := [], sizes := [], types := [], counts := [], data := "ascii".toList }) ∧
    PCDPointReader.numPoints
        ({ point := (),
           stream := { buf := [], pos := 38, eofbit := true, failbit := true },
           height := 0, width := 0, points := 9223372036854775808,
           fields := [], sizes := [], types := [], counts := [],
           data := "ascii".toList } : PCDPointReader Unit) = -9223372036854775808 ∧
    (-9223372036854775808 : Int) ≠ 9223372036854775808 :=
  ⟨rfl, rfl, by decide⟩

/-- C7 (amended): take a file whose header is a run of lines that do not end
header parsing, closed by a DATA line.  If one of the lines is `POINTS n`
(`n < 2^64` written in decimal digits) and no later header line has the keyword
`POINTS`, then on a successfully opened file `numPoints` returns `n` when
`n < 2^63` and `n - 2^64` otherwise.  If no header line has the keyword
`POINTS`, it returns 0. -/
theorem numPoints_of_header (point : Point) (pre mid : List (List Char))
    (dataLine body : List Char)
    (hpre : ∀ l ∈ pre, '\n' ∉ l ∧ leavesLoop split l = false)
    (hmid : ∀ l ∈ mid, '\n' ∉ l ∧ leavesLoop split l = false ∧ keywordOf l ≠ kwPOINTS)
    (hdata : '\n' ∉ dataLine ∧ keywordOf dataLine = kwDATA) :
    (∀ (n : Nat) (r : PCDPointReader Point), n < 2 ^ 64 →
        PCDPointReader.openBytes split point
          (unlines ((pre ++ ("POINTS ".toList ++ Nat.toDigits 10 n) :: mid) ++ [dataLine]) ++ body)
            = some (.ok r) →
        r.numPoints = if n < 2 ^ 63 then (n : Int) else (n : Int) - 2 ^ 64) ∧
    (∀ r : PCDPointReader Point, (∀ l ∈ pre, keywordOf l ≠ kwPOINTS) →
        PCDPointReader.openBytes split point (unlines (pre ++ [dataLine]) ++ body)
            = some (.ok r) →
        r.numPoints = 0) := by
  have hdp : keywordOf dataLine ≠ kwPOINTS := by rw [hdata.2]; decide
  constructor
  · intro n r hn hopen
    have hparts := pointsLine_parts (Nat.toDigits 10 n)
    have hpl : '\n' ∉ "POINTS ".toList ++ Nat.toDigits 10 n := by
      intro hmem
      rcases List.mem_append.mp hmem with h | h
      · exact absurd h (by decide)
      · exact newline_not_mem_toDigits n h
    have hlv : leavesLoop split ("POINTS ".toList ++ Nat.toDigits 10 n) = false := by
      rw [← processLine_snd split Header.init, processLine_POINTS split _ _ hparts.1]
    have hls : ∀ l ∈ pre ++ ("POINTS ".toList ++ Nat.toDigits 10 n) :: mid,
        '\n' ∉ l ∧ leavesLoop split l = false := by
      intro l hl
      rcases List.mem_append.mp hl with h | h
      · exact hpre l h
      · rcases List.mem_cons.mp h with rfl | h
        · exact ⟨hpl, hlv⟩
        · exact ⟨(hmid l h).1, (hmid l h).2.1⟩
    have hh := openBytes_header split _ dataLine body point r hls hdata hopen
    have hpts : r.points = n := by
      show r.toHeader.points = n
      rw [hh, processLine_points split _ _ hdp, runLines_append]
      show (runLines split (runLines split _ [_]) mid).points = n
      rw [runLines_points split _ mid (fun l hl => (hmid l hl).2.2)]
      show (processLine split _ _).1.points = n
      rw [processLine_POINTS split _ _ hparts.1, hparts.2]
      exact extractUInt64_toDigits n _ hn
    unfold PCDPointReader.numPoints toLongLong
    rw [hpts, Nat.mod_eq_of_lt hn]
  · intro r hk hopen
    have hh := openBytes_header split pre dataLine body point r hpre hdata hopen
    have hpts : r.points = 0 := by
      show r.toHeader.points = 0
      rw [hh, processLine_points split _ _ hdp, runLines_points split _ pre hk]
      rfl
    unfold PCDPointReader.numPoints
    rw [hpts]
    rfl

/-- Witness for C7: the file with the header lines `FIELDS x`, `POINTS 2`,
`SIZE 4`, `TYPE F`, `DATA ascii` opens and gives `numPoints = 2`; the file with
the header lines `VIEWPOINT 0`, `DATA ascii` opens and gives `numPoints = 0`. -/
theorem numPoints_of_header_witness :
    (PCDPointReader.openBytes splitTokens ()
        (unlines ((["FIELDS x".toList] ++ ("POINTS ".toList ++ Nat.toDigits 10 2) ::
          ["SIZE 4".toList, "TYPE F".toList]) ++ ["DATA ascii".toList]) ++ []) =
      some (Except.ok
        { point := (),
          stream := { buf := [], pos := 43, eofbit := true, failbit := true },
          height := 0, width := 0, points := 2,
          fields := ["x".toList], sizes := [52], types := ['F'], counts := [],
          data := "ascii".toList }) ∧
     PCDPointReader.numPoints
        ({ point := (),
           stream := { buf := [], pos := 43, eofbit := true, failbit := true },
           height := 0, width := 0, points := 2,
           fields := ["x".toList], sizes := [52], types := ['F'], counts := [],
           data := "ascii".toList } : PCDPointReader Unit) = 2) ∧
    (PCDPointReader.openBytes splitTokens ()
        (unlines (["VIEWPOINT 0".toList] ++ ["DATA ascii".toList]) ++ []) =
      some (Except.ok
        { point := (),
          stream := { buf := [], pos := 23, eofbit := true, failbit := true },
          height := 0, width := 0, points := 0,
          fields := [], sizes := [], types := [], counts := [],
          data := "ascii".toList }) ∧
     PCDPointReader.numPoints
        ({ point := (),
           stream := { buf := [], pos := 23, eofbit := true, failbit := true },
           height := 0, width := 0, points := 0,
           fields := [], sizes := [], types := [], counts := [],
           data := "ascii".toList } : PCDPointReader Unit) = 0) :=
  ⟨⟨rfl,
    (numPoints_of_header splitTokens () ["FIELDS x".toList] ["SIZE 4".toList, "TYPE F".toList]
      "DATA ascii".toList [] (by decide) (by decide) (by decide)).1 2 _ (by decide) rfl⟩,
   ⟨rfl,
    (numPoints_of_header splitTokens () ["VIEWPOINT 0".toList] []
      "DATA ascii".toList [] (by decide) (by decide) (by decide)).2 _ (by decide) rfl⟩⟩

/-- C8 (failing input): on the binary file whose header ends with the line
`DATA binary`, with at least four bytes of record data after it, the reader
that the constructor returns has its read cursor four bytes past the first
byte of record data: the constructor has consumed the bytes `a b c d`. -/
theorem open_consumes_record_bytes (point : Point) (a b c d : Char) (rest : List Char) :
    ∃ r, PCDPointReader.openBytes split point (headerBinaryXYZ ++ a :: b :: c :: d :: rest)
        = some (.ok r) ∧
      r.stream.pos = headerBinaryXYZ.length + 4 ∧ r.stream.buf = rest :=
  ⟨_, openBytes_binaryXYZ split point a b c d rest, rfl, rfl⟩

/-- C9 (failing input): in binary mode one `readNextPoint` call on a good
stream with at least four unread bytes moves the read cursor by exactly
`sizeof(float) = 4` bytes; on the file with three 4-byte fields per record (12
bytes per record) and two full records left after the constructor, the cursor
goes from 60 to 64, not to 72. -/
theorem binary_read_advances_four_bytes (point : Point) (count : Int) :
    (∀ (h : Header) (e f g i : Char) (tail : List Char) (p : Nat),
        (PCDPointReader.readNextPoint count
          { toHeader := { h with data := kwBinary }, point := point,
            stream := { buf := e :: f :: g :: i :: tail, pos := p, eofbit := false,
                        failbit := false } }).2.2.stream =
          { buf := tail, pos := p + 4, eofbit := false, failbit := false }) ∧
    (∃ r, PCDPointReader.openBytes split point
          (headerBinaryXYZ ++ "0123".toList ++ record123 ++ record456) = some (.ok r) ∧
        r.stream.pos = 60 ∧ r.stream.buf.length = 24 ∧
        (r.readNextPoint count).2.2.stream.pos = 64) := by
  refine ⟨?_, ⟨_, openBytes_binaryXYZ split point '0' '1' '2' '3' (record123 ++ record456),
    rfl, rfl, rfl⟩⟩
  intro h e f g i tail p
  simp [PCDPointReader.readNextPoint, PCDPointReader.readNextPointBinary,
    PCDPointReader.byteReader, IStream.read, IStream.good, IStream.eof, sizeofFloat]

/-- C10 (failing input): `getAABB` returns the default-constructed box for
every reader; on the text-mode example file, after two `readNextPoint` calls
that returned true, it still returns that box. -/
theorem getAABB_always_default {AABB : Type} (emptyBox : AABB) (point : Point) :
    (∀ r : PCDPointReader Point, r.getAABB emptyBox = emptyBox) ∧
    (∃ r, PCDPointReader.openBytes split point fileAsciiExample = some (.ok r) ∧
        (PCDPointReader.readMany 2 0 r).1 = [true, true] ∧
        (PCDPointReader.readMany 2 0 r).2.2.getAABB emptyBox = emptyBox) :=
  ⟨fun _ => rfl, ⟨_, openBytes_asciiExample split point, rfl, rfl⟩⟩

/-- C11 (counterexample): the file whose only header line is
`DATA binary_compressed` opens, with that token stored as the encoding. -/
theorem binary_compressed_opens :
    PCDPointReader.openBytes splitTokens () "DATA binary_compressed\n".toList =
      some (Except.ok
        { point := (),
          stream := { buf := [], pos := 23, eofbit := true, failbit := true },
          height := 0, width := 0, points := 0,
          fields := [], sizes := [], types := [], counts := [],
          data := "binary_compressed".toList }) :=
  rfl

/-- C11 (amended): the encoding token is not validated.  For every header
closed by a DATA line, whether the constructor returns a reader does not depend
on the DATA line.  When no earlier line ends header parsing, the constructor
throws exactly when the FIELDS, SIZE and TYPE lists left by the earlier lines
differ in length, and otherwise returns a reader whose header members are those
left by the earlier lines with `data` set to the first token after `DATA`,
whatever that token is (empty when there is none).  A reader whose stored
token is not `binary` answers `readNextPoint` from the counter alone, without
touching its stream. -/
theorem encoding_token_not_checked (point : Point) (ls : List (List Char))
    (dl dl' body body' : List Char)
    (hnl : ∀ l ∈ ls, '\n' ∉ l)
    (hdl : '\n' ∉ dl ∧ keywordOf dl = kwDATA) (hdl' : '\n' ∉ dl' ∧ keywordOf dl' = kwDATA) :
    opens (PCDPointReader.openBytes split point (unlines (ls ++ [dl]) ++ body)) =
      opens (PCDPointReader.openBytes split point (unlines (ls ++ [dl']) ++ body')) ∧
    ((∀ l ∈ ls, leavesLoop split l = false) →
      metadata (PCDPointReader.openBytes split point (unlines (ls ++ [dl]) ++ body)) =
        some (if (runLines split Header.init ls).fields.length ≠
                  (runLines split Header.init ls).sizes.length ∨
                (runLines split Header.init ls).sizes.length ≠
                  (runLines split Header.init ls).types.length then
          .error (Exception.PotreeException "Integrity check failed.")
        else .ok { runLines split Header.init ls with
                    data := ((wordsOf dl).tail.head?).getD [] })) ∧
    ∀ (r : PCDPointReader Point) (count : Int), r.data ≠ kwBinary →
      r.readNextPoint count = (decide (count < 1000), wrapInt32 (count + 1), r) := by
  refine ⟨?_, ?_, ?_⟩
  · rw [opens_openBytes split ls dl body point hnl hdl,
      opens_openBytes split ls dl' body' point hnl hdl',
      parseLines_data_lists split Header.init ls dl dl' hdl.2 hdl'.2]
  · intro hls
    rw [metadata_openBytes split ls dl body point hnl hdl,
      parseLines_append_data split Header.init ls dl hls hdl.2,
      runLines_data split Header.init ls hls]
    show some (if (runLines split Header.init ls).fields.length ≠ _ ∨ _ then _
      else Except.ok { runLines split Header.init ls with
        data := (extractString (argsOf dl)).elim Header.init.data Prod.fst }) = _
    rw [show Header.init.data = [] from rfl, first_argument_eq]
  · intro r count hr
    unfold PCDPointReader.readNextPoint
    rw [if_neg hr]

/-- Witness for C11: the header `FIELDS x`, `SIZE 4`, `TYPE F` opens with the
DATA line `DATA binary_compressed` as it does with `DATA ascii`, and the reader
then holds the token `binary_compressed`. -/
theorem encoding_token_not_checked_witness :
    opens (PCDPointReader.openBytes splitTokens ()
        (unlines (["FIELDS x".toList, "SIZE 4".toList, "TYPE F".toList] ++
          ["DATA binary_compressed".toList]) ++ "abcd".toList)) =
      opens (PCDPointReader.openBytes splitTokens ()
        (unlines (["FIELDS x".toList, "SIZE 4".toList, "TYPE F".toList] ++
          ["DATA ascii".toList]) ++ "1.0\n".toList)) ∧
    metadata (PCDPointReader.openBytes splitTokens ()
        (unlines (["FIELDS x".toList, "SIZE 4".toList, "TYPE F".toList] ++
          ["DATA binary_compressed".toList]) ++ "abcd".toList)) =
      some (Except.ok
        { height := 0, width := 0, points := 0,
          fields := ["x".toList], sizes := [52], types := ['F'], counts := [],
          data := "binary_compressed".toList }) :=
  ⟨(encoding_token_not_checked splitTokens ()
      ["FIELDS x".toList, "SIZE 4".toList, "TYPE F".toList]
      "DATA binary_compressed".toList "DATA ascii".toList "abcd".toList "1.0\n".toList
      (by decide) (by decide) (by decide)).1,
   (encoding_token_not_checked splitTokens ()
      ["FIELDS x".toList, "SIZE 4".toList, "TYPE F".toList]
      "DATA binary_compressed".toList "DATA ascii".toList "abcd".toList "1.0\n".toList
      (by decide) (by decide) (by decide)).2.1 (by decide)⟩

/-- C13 (counterexample): a header with three FIELDS names and a COUNT line
with two entries opens. -/
theorem count_mismatch_opens :
    PCDPointReader.openBytes splitTokens ()
        "FIELDS x y z\nSIZE 4 4 4\nTYPE F F F\nCOUNT 1 1\nDATA ascii\n".toList =
      some (Except.ok
        { point := (),
          stream := { buf := [], pos := 56, eofbit := true, failbit := true },
          height := 0, width := 0, points := 0,
          fields := ["x".toList, "y".toList, "z".toList], sizes := [52, 52, 52],
          types := ['F', 'F', 'F'], counts := [49, 49], data := "ascii".toList }) :=
  rfl

/-- C13 (amended): a COUNT line takes no part in the integrity check: for
every header closed by a DATA line, the constructor returns a reader for the
header with a COUNT line exactly when it does for the header without that
line, whatever the number of COUNT entries. -/
theorem count_line_not_checked (point : Point) (ls1 ls2 : List (List Char))
    (c dl body : List Char)
    (hnl1 : ∀ l ∈ ls1, '\n' ∉ l) (hnl2 : ∀ l ∈ ls2, '\n' ∉ l)
    (hc : '\n' ∉ c ∧ keywordOf c = kwCOUNT)
    (hdl : '\n' ∉ dl ∧ keywordOf dl = kwDATA) :
    opens (PCDPointReader.openBytes split point
        (unlines ((ls1 ++ c :: ls2) ++ [dl]) ++ body)) =
      opens (PCDPointReader.openBytes split point
        (unlines ((ls1 ++ ls2) ++ [dl]) ++ body)) := by
  have hnl : ∀ l ∈ ls1 ++ c :: ls2, '\n' ∉ l := by
    intro l hl
    rcases List.mem_append.mp hl with h | h
    · exact hnl1 l h
    · rcases List.mem_cons.mp h with rfl | h
      · exact hc.1
      · exact hnl2 l h
  have hnl' : ∀ l ∈ ls1 ++ ls2, '\n' ∉ l := by
    intro l hl
    rcases List.mem_append.mp hl with h | h
    · exact hnl1 l h
    · exact hnl2 l h
  have hlv : leavesLoop split c = false := by
    rw [← processLine_snd split Header.init, processLine_COUNT split _ _ hc.2]
  have hls : ∀ x : Header, (processLine split x c).1.lists = x.lists := by
    intro x
    rw [processLine_COUNT split _ _ hc.2]
    rfl
  have key := parseLines_insert_lists split Header.init ls1 (ls2 ++ [dl]) c hlv hls
  rw [opens_openBytes split _ dl body point hnl hdl,
    opens_openBytes split _ dl body point hnl' hdl]
  have e1 : (ls1 ++ c :: ls2) ++ [dl] = ls1 ++ c :: (ls2 ++ [dl]) := by simp
  have e2 : (ls1 ++ ls2) ++ [dl] = ls1 ++ (ls2 ++ [dl]) := by simp
  rw [e1, e2, key.1]

/-- Witness for C13: the header `FIELDS x y z`, `SIZE 4 4 4`, `TYPE F F F`
opens with the line `COUNT 1 1` as it does without it. -/
theorem count_line_not_checked_witness :
    opens (PCDPointReader.openBytes splitTokens ()
        (unlines ((["FIELDS x y z".toList, "SIZE 4 4 4".toList] ++ "COUNT 1 1".toList ::
          ["TYPE F F F".toList]) ++ ["DATA ascii".toList]) ++ [])) =
      opens (PCDPointReader.openBytes splitTokens ()
        (unlines ((["FIELDS x y z".toList, "SIZE 4 4 4".toList] ++
          ["TYPE F F F".toList]) ++ ["DATA ascii".toList]) ++ [])) :=
  count_line_not_checked splitTokens ()
    ["FIELDS x y z".toList, "SIZE 4 4 4".toList] ["TYPE F F F".toList]
    "COUNT 1 1".toList "DATA ascii".toList [] (by decide) (by decide) (by decide) (by decide)

/-- C16: the DATA line ends header parsing unconditionally: for every header
that ends with a DATA line and any two byte sequences appended after it, the
constructor leaves the same metadata (the same header members, or the same
exception); it is the metadata computed from the header lines alone. -/
theorem data_line_ends_header (point : Point) (ls : List (List Char)) (dl b1 b2 : List Char)
    (hnl : ∀ l ∈ ls, '\n' ∉ l) (hdl : '\n' ∉ dl ∧ keywordOf dl = kwDATA) :
    metadata (PCDPointReader.openBytes split point (unlines (ls ++ [dl]) ++ b1)) =
      metadata (PCDPointReader.openBytes split point (unlines (ls ++ [dl]) ++ b2)) ∧
    (metadata (PCDPointReader.openBytes split point (unlines (ls ++ [dl]) ++ b1))).isSome
      = true := by
  rw [metadata_openBytes split ls dl b1 point hnl hdl,
    metadata_openBytes split ls dl b2 point hnl hdl]
  exact ⟨rfl, rfl⟩

/-- Witness for C16: after the header `FIELDS x`, `SIZE 4`, `TYPE F`,
`DATA ascii`, the body `1.0` and a body that looks like more header lines give
the same metadata. -/
theorem data_line_ends_header_witness :
    metadata (PCDPointReader.openBytes splitTokens ()
        (unlines (["FIELDS x".toList, "SIZE 4".toList, "TYPE F".toList] ++
          ["DATA ascii".toList]) ++ "1.0\n".toList)) =
      metadata (PCDPointReader.openBytes splitTokens ()
        (unlines (["FIELDS x".toList, "SIZE 4".toList, "TYPE F".toList] ++
          ["DATA ascii".toList]) ++ "FIELDS y\nPOINTS 7\nDATA binary\n".toList)) :=
  (data_line_ends_header splitTokens ()
    ["FIELDS x".toList, "SIZE 4".toList, "TYPE F".toList] "DATA ascii".toList
    "1.0\n".toList "FIELDS y\nPOINTS 7\nDATA binary\n".toList (by decide) (by decide)).1

/-- C17: unrecognised keywords are not fatal: inserting into a header, before
its closing DATA line, a line whose first token is not a recognised keyword
changes neither the metadata nor whether the constructor returns a reader. -/
theorem unrecognized_keyword_ignored (point : Point) (ls1 ls2 : List (List Char))
    (u dl body : List Char)
    (hnl1 : ∀ l ∈ ls1, '\n' ∉ l) (hnl2 : ∀ l ∈ ls2, '\n' ∉ l)
    (hu : '\n' ∉ u ∧ keywordOf u ∉ recognizedKeywords)
    (hdl : '\n' ∉ dl ∧ keywordOf dl = kwDATA) :
    metadata (PCDPointReader.openBytes split point
        (unlines ((ls1 ++ u :: ls2) ++ [dl]) ++ body)) =
      metadata (PCDPointReader.openBytes split point
        (unlines ((ls1 ++ ls2) ++ [dl]) ++ body)) ∧
    opens (PCDPointReader.openBytes split point
        (unlines ((ls1 ++ u :: ls2) ++ [dl]) ++ body)) =
      opens (PCDPointReader.openBytes split point
        (unlines ((ls1 ++ ls2) ++ [dl]) ++ body)) := by
  have hnl : ∀ l ∈ ls1 ++ u :: ls2, '\n' ∉ l := by
    intro l hl
    rcases List.mem_append.mp hl with h | h
    · exact hnl1 l h
    · rcases List.mem_cons.mp h with rfl | h
      · exact hu.1
      · exact hnl2 l h
  have hnl' : ∀ l ∈ ls1 ++ ls2, '\n' ∉ l := by
    intro l hl
    rcases List.mem_append.mp hl with h | h
    · exact hnl1 l h
    · exact hnl2 l h
  have key := parseLines_insert_noop split Header.init ls1 (ls2 ++ [dl]) u
    (fun x => processLine_unrecognized split x u hu.2)
  have e1 : (ls1 ++ u :: ls2) ++ [dl] = ls1 ++ u :: (ls2 ++ [dl]) := by simp
  have e2 : (ls1 ++ ls2) ++ [dl] = ls1 ++ (ls2 ++ [dl]) := by simp
  rw [metadata_openBytes split _ dl body point hnl hdl,
    metadata_openBytes split _ dl body point hnl' hdl,
    opens_openBytes split _ dl body point hnl hdl,
    opens_openBytes split _ dl body point hnl' hdl, e1, e2, key]
  exact ⟨rfl, rfl⟩

/-- Witness for C17: the line `COLOR rgb` inserted between `FIELDS x` and
`SIZE 4` changes nothing. -/
theorem unrecognized_keyword_ignored_witness :
    metadata (PCDPointReader.openBytes splitTokens ()
        (unlines ((["FIELDS x".toList] ++ "COLOR rgb".toList ::
          ["SIZE 4".toList, "TYPE F".toList]) ++ ["DATA ascii".toList]) ++ [])) =
      metadata (PCDPointReader.openBytes splitTokens ()
        (unlines ((["FIELDS x".toList] ++ ["SIZE 4".toList, "TYPE F".toList]) ++
          ["DATA ascii".toList]) ++ [])) :=
  (unrecognized_keyword_ignored splitTokens () ["FIELDS x".toList]
    ["SIZE 4".toList, "TYPE F".toList] "COLOR rgb".toList "DATA ascii".toList []
    (by decide) (by decide) (by decide) (by decide)).1

/-- C12 (failing input): the line `SIZE 4 4 4` stores the character codes
52, 52, 52 and the line `SIZE 1 2 8` stores 49, 50, 56; the reader built from
the three-float binary header holds the widths 52, 52, 52, none of which is 1,
2, 4 or 8, so the size dispatch of the constructor takes none of its cases for
them, not even looking at `types`. -/
theorem size_line_stores_character_codes (point : Point) :
    (processLine split Header.init "SIZE 4 4 4".toList).1.sizes = [52, 52, 52] ∧
    (processLine split Header.init "SIZE 1 2 8".toList).1.sizes = [49, 50, 56] ∧
    (∃ r, PCDPointReader.openBytes split point (headerBinaryXYZ ++ "abcd".toList)
        = some (.ok r) ∧
      r.sizes = [52, 52, 52] ∧ ∀ w ∈ r.sizes, w ≠ 1 ∧ w ≠ 2 ∧ w ≠ 4 ∧ w ≠ 8) ∧
    (∀ i, i < 3 → dispatchField [52, 52, 52] [] i = .ok ()) := by
  refine ⟨rfl, rfl, ⟨_, openBytes_binaryXYZ split point 'a' 'b' 'c' 'd' [], rfl, ?_⟩, ?_⟩
  · intro w hw
    have : w = 52 := by
      simp only [List.mem_cons, List.mem_singleton, List.not_mem_nil, or_false, or_self] at hw
      exact hw
    subst this
    decide
  · intro i hi
    interval_cases i <;> rfl

/-- C15 (counterexample): the file `FIELDS x`, `SIZE 4`, `TYPE F` without any
DATA line opens; the encoding token of the reader is empty. -/
theorem missing_data_line_opens :
    PCDPointReader.openBytes splitTokens () "FIELDS x\nSIZE 4\nTYPE F\n".toList =
      some (Except.ok
        { point := (),
          stream := { buf := [], pos := 23, eofbit := true, failbit := true },
          height := 0, width := 0, points := 0,
          fields := ["x".toList], sizes := [52], types := ['F'], counts := [],
          data := [] }) :=
  rfl

/-- C15 (amended): for every input in which no line ends header parsing before
the end of the stream (so there is no DATA line), the constructor throws
exactly when the FIELDS, SIZE and TYPE lists left by the lines differ in
length; otherwise it returns a reader with those header members, and the
encoding token is empty. -/
theorem missing_data_line_not_checked (point : Point) (ls : List (List Char))
    (last : List Char)
    (hls : ∀ l ∈ ls, '\n' ∉ l ∧ leavesLoop split l = false)
    (hlast : '\n' ∉ last ∧ leavesLoop split last = false) :
    metadata (PCDPointReader.openBytes split point (unlines ls ++ last)) =
      some (if (runLines split Header.init (ls ++ [last])).fields.length ≠
                (runLines split Header.init (ls ++ [last])).sizes.length ∨
              (runLines split Header.init (ls ++ [last])).sizes.length ≠
                (runLines split Header.init (ls ++ [last])).types.length then
        .error (Exception.PotreeException "Integrity check failed.")
      else .ok (runLines split Header.init (ls ++ [last]))) ∧
    (runLines split Header.init (ls ++ [last])).data = [] := by
  constructor
  · rw [openBytes_no_data split ls last point hls hlast.1, metadata_finishOpen]
  · rw [runLines_data split Header.init (ls ++ [last])]
    · rfl
    · intro l hl
      rcases List.mem_append.mp hl with h | h
      · exact (hls l h).2
      · rw [List.mem_singleton.mp h]; exact hlast.2

/-- Witness for C15: the file `FIELDS x`, `SIZE 4`, `TYPE F` leaves the metadata
of its three lines, and the file `FIELDS x y`, `SIZE 4` is rejected by the
integrity check. -/
theorem missing_data_line_not_checked_witness :
    metadata (PCDPointReader.openBytes splitTokens ()
        (unlines ["FIELDS x".toList, "SIZE 4".toList, "TYPE F".toList] ++ [])) =
      some (Except.ok
        { height := 0, width := 0, points := 0,
          fields := ["x".toList], sizes := [52], types := ['F'], counts := [],
          data := [] }) ∧
    metadata (PCDPointReader.openBytes splitTokens ()
        (unlines ["FIELDS x y".toList] ++ "SIZE 4".toList)) =
      some (Except.error (Exception.PotreeException "Integrity check failed.")) :=
  ⟨(missing_data_line_not_checked splitTokens ()
      ["FIELDS x".toList, "SIZE 4".toList, "TYPE F".toList] [] (by decide) (by decide)).1,
   (missing_data_line_not_checked splitTokens ()
      ["FIELDS x y".toList] "SIZE 4".toList (by decide) (by decide)).1⟩

/-- C18 (failing input): on the stream of a file that could not be opened the
header loop never leaves, whatever the fuel, so the constructor neither returns
nor throws; on every file that could be opened it does one of the two. -/
theorem open_loops_on_unopened_file (point : Point) :
    (∀ fuel, PCDPointReader.new split fuel point (IStream.openFile none) = none) ∧
    (∀ bytes, (PCDPointReader.openBytes split point bytes).isSome = true) := by
  refine ⟨?_, fun bytes => openBytes_isSome split point bytes⟩
  intro fuel
  unfold PCDPointReader.new
  rw [headerLoop_failed_stream split fuel _ rfl rfl]

/-- C19 (failing input): for any two readers `a` and `b`, the first
`readNextPoint` call on `a` returns true when it is the first call of the
program, and returns false when 1000 calls on `b` came before it: the counter
left by the calls on `b` is the counter seen by the call on `a`. -/
theorem readers_share_counter (a b : PCDPointReader Point) :
    (a.readNextPoint 0).1 = true ∧
    (PCDPointReader.readMany 1000 0 b).2.1 = 1000 ∧
    (a.readNextPoint (PCDPointReader.readMany 1000 0 b).2.1).1 = false := by
  have h := (readMany_results 1000 0 b (le_refl _) (by norm_num)).2
  have h' : (PCDPointReader.readMany 1000 0 b).2.1 = 1000 := by
    rw [h]; norm_num
  refine ⟨rfl, h', ?_⟩
  rw [h']
  rfl

/-- C20: the SIZE, TYPE and COUNT branches read one character at a time: the
entries appended to `sizes`, `types` or `counts` are the non-whitespace
characters that follow the keyword on the line (as byte values for SIZE and
COUNT), one entry per character, so their number is the number of those
characters. -/
theorem size_type_count_read_per_character (h : Header) (l : List Char) :
    (keywordOf l = kwSIZE →
      (processLine split h l).1.sizes =
          h.sizes ++ (nonSpaceChars (argsOf l)).map (fun c => c.toNat % 256) ∧
        (processLine split h l).1.sizes.length =
          h.sizes.length + (nonSpaceChars (argsOf l)).length) ∧
    (keywordOf l = kwTYPE →
      (processLine split h l).1.types = h.types ++ nonSpaceChars (argsOf l) ∧
        (processLine split h l).1.types.length =
          h.types.length + (nonSpaceChars (argsOf l)).length) ∧
    (keywordOf l = kwCOUNT →
      (processLine split h l).1.counts =
          h.counts ++ (nonSpaceChars (argsOf l)).map (fun c => c.toNat % 256) ∧
        (processLine split h l).1.counts.length =
          h.counts.length + (nonSpaceChars (argsOf l)).length) := by
  refine ⟨?_, ?_, ?_⟩
  · intro hk
    have e : (processLine split h l).1.sizes =
        h.sizes ++ (nonSpaceChars (argsOf l)).map (fun c => c.toNat % 256) := by
      rw [processLine_SIZE split h l hk]
      show pushAll extractUInt8 (argsOf l) h.sizes = _
      unfold pushAll
      rw [extractLoop_extractUInt8 _ _ _ (le_refl _)]
    exact ⟨e, by rw [e, List.length_append, List.length_map]⟩
  · intro hk
    have e : (processLine split h l).1.types = h.types ++ nonSpaceChars (argsOf l) := by
      rw [processLine_TYPE split h l hk]
      show pushAll extractChar (argsOf l) h.types = _
      unfold pushAll
      rw [extractLoop_extractChar _ _ _ (le_refl _)]
    exact ⟨e, by rw [e, List.length_append]⟩
  · intro hk
    have e : (processLine split h l).1.counts =
        h.counts ++ (nonSpaceChars (argsOf l)).map (fun c => c.toNat % 256) := by
      rw [processLine_COUNT split h l hk]
      show pushAll extractUInt8 (argsOf l) h.counts = _
      unfold pushAll
      rw [extractLoop_extractUInt8 _ _ _ (le_refl _)]
    exact ⟨e, by rw [e, List.length_append, List.length_map]⟩

/-- Witness for C20: `SIZE 16 4` appends the three entries 49, 54, 52 (two
tokens, three characters), `TYPE F U` the two entries `F`, `U`, and `COUNT 1 1 1`
the three entries 49, 49, 49. -/
theorem size_type_count_read_per_character_witness :
    (processLine splitTokens Header.init "SIZE 16 4".toList).1.sizes = [] ++ [49, 54, 52] ∧
    (processLine splitTokens Header.init "TYPE F U".toList).1.types = [] ++ ['F', 'U'] ∧
    (processLine splitTokens Header.init "COUNT 1 1 1".toList).1.counts = [] ++ [49, 49, 49] :=
  ⟨((size_type_count_read_per_character splitTokens Header.init "SIZE 16 4".toList).1
      (by decide)).1,
   ((size_type_count_read_per_character splitTokens Header.init "TYPE F U".toList).2.1
      (by decide)).1,
   ((size_type_count_read_per_character splitTokens Header.init "COUNT 1 1 1".toList).2.2
      (by decide)).1⟩

end Claims

end Potree
